import Mathlib

/-!
Verification development for the Piotr structured rich-text editing engine.

The definitions below are a shallow embedding of the JavaScript sources:

* JS objects that serve as node states are embedded as ordered association
  lists (`StateMap`) with `Object.assign` merge semantics (`objAssign`),
  matching the JS property-order behaviour: updating an existing key keeps
  its position, a new key is appended at the end.
* JS strings are embedded as `String`, manipulated through their
  character list (`.data`); `substring`, `+`, `.length`, `split` are
  embedded as clamped list operations, mirroring JS clamping behaviour.
* The mutable node objects of the source are embedded as a pool of
  node records indexed by an allocation id (`Core.pool`), and a surface's
  `nodes` array as the ordered list of ids (`Core.seq`); this models JS
  reference semantics (commands capture object references).
-/

/-- JSON-like JS values (the value universe of node states and documents). -/
inductive JValue where
  | null : JValue
  | bool (b : Bool) : JValue
  | num (n : Int) : JValue
  | str (s : String) : JValue
  | arr (elems : List JValue) : JValue
  | obj (fields : List (String × JValue)) : JValue

/-- A JS object used as a node state: an ordered list of key-value pairs. -/
abbrev StateMap := List (String × JValue)

/-- Reads property `q` (keys are unique in JS objects; the first binding
wins in this embedding). -/
def getKey (s : StateMap) (q : String) : Option JValue :=
  match s with
  | [] => none
  | (k', v) :: rest => if k' = q then some v else getKey rest q

/-- JS `Object.prototype.hasOwnProperty`. -/
def hasKey (s : StateMap) (q : String) : Bool :=
  match s with
  | [] => false
  | (k', _) :: rest => k' = q || hasKey rest q

/-- JS property write `s[k] = v`: updates an existing binding in place,
otherwise appends the new binding at the end (JS property order). -/
def setKey (s : StateMap) (k : String) (v : JValue) : StateMap :=
  match s with
  | [] => [(k, v)]
  | (k', v') :: rest =>
      if k' = k then (k', v) :: rest else (k', v') :: setKey rest k v

/-- JS `Object.assign(s, u)`: writes every property of `u` onto `s`, in
`u`'s property order. This is `Node#updateState` from the source. -/
def objAssign (s u : StateMap) : StateMap :=
  u.foldl (fun acc p => setKey acc p.1 p.2) s

/-- The ordered key list of a state object. -/
def keysOf (s : StateMap) : List String := s.map Prod.fst

/-- `q` agrees with `p` on every property that `p` has. -/
def AgreeOn (p q : StateMap) : Prop :=
  ∀ k, hasKey p k = true → getKey q k = getKey p k

/-! ### JS string operations

JS `substring` clamps its arguments; `List.take`/`List.drop` on the
character data have the same clamping behaviour. -/

/-- JS `s.substring(0, n)`. -/
def strTake (s : String) (n : Nat) : String := ⟨s.data.take n⟩

/-- JS `s.substring(n)`. -/
def strDrop (s : String) (n : Nat) : String := ⟨s.data.drop n⟩

/-- JS `s.length` (modulo UTF-16 vs. character counting, which coincide
for the texts considered here). -/
def strLen (s : String) : Nat := s.data.length

/-- JS `a + b` on strings. -/
def strCat (a b : String) : String := ⟨a.data ++ b.data⟩

/-! ### JS array splice operations -/

/-- JS `arr.splice(pos, 0, a)`: inserts `a` at index `pos` (clamping
`pos` to the length, as JS does). -/
def spliceIn (l : List α) (pos : Nat) (a : α) : List α :=
  l.take pos ++ a :: l.drop pos

/-- JS `arr.splice(pos, 1)`: removes the element at index `pos` (a no-op
past the end, as in JS). -/
def spliceOut (l : List α) (pos : Nat) : List α :=
  l.take pos ++ l.drop (pos + 1)

/-! ### Node variants and the document model

`ParagraphNode` and `HeadingNode` extend `TextNode` (text-bearing,
state holds a `text` string); `IsolatedNode` is the atomic variant
(length 0, opaque content). A heading carries a `level` attribute set by
its constructor (`none` embeds the JS `undefined` argument). -/

inductive Variant where
  | paragraph : Variant
  | heading (level : Option JValue) : Variant
  | isolated : Variant

/-- JS `instanceof TextNode`. -/
def Variant.isText : Variant → Bool
  | .paragraph => true
  | .heading _ => true
  | .isolated => false

/-- A node object: its class tag plus its mutable `state`. -/
structure PNode where
  variant : Variant
  state : StateMap

/-- `TextNode#getInitialState` (paragraph and heading); isolated-node
subclasses are abstract in the source, their initial state is opaque and
irrelevant to the claims (no isolated node is ever constructed here). -/
def initialState : Variant → StateMap
  | .paragraph => [("text", .str "")]
  | .heading _ => [("text", .str "")]
  | .isolated => []

/-- `node.state.text` (the empty string stands for a state without a
proper text string; text-bearing nodes always store one). -/
def stateText (s : StateMap) : String :=
  match getKey s "text" with
  | some (.str t) => t
  | _ => ""

/-- `Node#getLength`: text length for text-bearing nodes, 0 for isolated
nodes. -/
def PNode.getLength (n : PNode) : Nat :=
  match n.variant with
  | .isolated => 0
  | _ => strLen (stateText n.state)

/-- The heap of node objects (`pool`, keyed by allocation id — JS object
identity) together with one surface's `nodes` array (`seq`, the ids in
document order). `Node#position` is the index of a node's id in `seq`
(the surface recomputes positions after every structural change). -/
structure Core where
  pool : List (Nat × PNode)
  seq : List Nat

def Core.hasId (c : Core) (id : Nat) : Bool :=
  c.pool.any (fun e => e.1 = id)

def Core.nodeOf (c : Core) (id : Nat) : PNode :=
  match c.pool.find? (fun e => e.1 = id) with
  | some e => e.2
  | none => ⟨.isolated, []⟩

def Core.stateOf (c : Core) (id : Nat) : StateMap := (c.nodeOf id).state

/-- Mutation of one node object's state (all other objects untouched). -/
def Core.withState (c : Core) (id : Nat) (f : StateMap → StateMap) : Core :=
  ⟨c.pool.map (fun e => if e.1 = id then (e.1, ⟨e.2.variant, f e.2.state⟩) else e),
   c.seq⟩

/-- The id of the node at array index `i` (`surface.nodes[i]`). -/
def Core.idAt (c : Core) (i : Nat) : Nat := c.seq.getD i 0

/-- A fresh allocation id (`new ...` in JS). -/
def freshId (c : Core) : Nat :=
  c.pool.foldr (fun e m => max (e.1 + 1) m) 0

/-- Well-formedness of the heap: object ids are unique, object states
have unique property keys (both automatic in JS). -/
def WfCore (c : Core) : Prop :=
  (c.pool.map (fun e => e.1)).Nodup ∧
  ∀ e ∈ c.pool, (keysOf e.2.state).Nodup

/-- Well-formedness of the surface array: positions hold distinct live
objects. -/
def WfSeq (c : Core) : Prop :=
  c.seq.Nodup ∧ ∀ id ∈ c.seq, c.hasId id = true

/-- The model-level selection state (`SurfaceSelection#state` offsets
portion): start and end node indices and offsets, plus the caret flag. -/
structure Sel where
  startNodeIndex : Int
  startOffset : Int
  endNodeIndex : Int
  endOffset : Int
  caret : Bool
deriving DecidableEq

/-- `surface.selection.set(i, o)` (collapse on the start point). -/
def Sel.collapse (i : Nat) (o : Nat) : Sel :=
  ⟨(i : Int), (o : Int), (i : Int), (o : Int), true⟩

/-- A model range (`Piotr.Range` / the range literals of the source). -/
structure MRange where
  startNodeIndex : Nat
  startOffset : Nat
  endNodeIndex : Nat
  endOffset : Nat
  caret : Bool

/-- `Range.isCollapsed`. -/
def MRange.isCollapsed (r : MRange) : Bool :=
  r.caret || (r.startNodeIndex = r.endNodeIndex && r.startOffset = r.endOffset)

/-! Pool-level accessors (the heap of node objects as an association
list over allocation ids). -/

abbrev Pool := List (Nat × PNode)

def poolHas (pool : Pool) (id : Nat) : Bool :=
  pool.any (fun e => e.1 = id)

def poolFind (pool : Pool) (id : Nat) : PNode :=
  match pool.find? (fun e => e.1 = id) with
  | some e => e.2
  | none => ⟨.isolated, []⟩

def poolSet (pool : Pool) (id : Nat) (f : StateMap → StateMap) : Pool :=
  pool.map (fun e => if e.1 = id then (e.1, ⟨e.2.variant, f e.2.state⟩) else e)

/-! ### Commands

The command factory (`CF`) builds three primitive commands — `UpdateNode`,
`InsertNode`, `RemoveNode` — plus compounds (`compose`/`composeArray`).
Every primitive executes immediately upon creation and captures its undo
data (previous state / node reference) at creation time. Re-`execute`
replays the captured effect; `cancel` reverses it. A compound executes
its members in order and cancels them in reverse order. -/

inductive Prim where
  | update (id : Nat) (old upd : StateMap) : Prim
  | insert (id : Nat) (node : PNode) (pos : Nat) : Prim
  | remove (pos : Nat) (capturedId : Nat) : Prim

/-- Re-execution of a primitive (`cmd.execute()`): `UpdateNode` merges
the update into the node's state; `InsertNode` re-inserts the captured
node object (already in the heap) into the array; `RemoveNode` removes
position `pos` from the array. -/
def Prim.exec : Prim → Core → Core
  | .update id _ u, c => c.withState id (fun st => objAssign st u)
  | .insert id _ pos, c => ⟨c.pool, spliceIn c.seq pos id⟩
  | .remove pos _, c => ⟨c.pool, spliceOut c.seq pos⟩

/-- `cmd.cancel()`: `UpdateNode` writes the captured old state back
(`node.updateState(oldState)`); `InsertNode` removes the inserted
position; `RemoveNode` re-inserts the captured node object. -/
def Prim.cancel : Prim → Core → Core
  | .update id old _, c => c.withState id (fun st => objAssign st old)
  | .insert _ _ pos, c => ⟨c.pool, spliceOut c.seq pos⟩
  | .remove pos cid, c => ⟨c.pool, spliceIn c.seq pos cid⟩

inductive Cmd where
  | prim (p : Prim) : Cmd
  | compound (cs : List Cmd) : Cmd

mutual
def Cmd.exec : Cmd → Core → Core
  | .prim p, c => p.exec c
  | .compound cs, c => Cmd.execList cs c
def Cmd.execList : List Cmd → Core → Core
  | [], c => c
  | k :: ks, c => Cmd.execList ks (Cmd.exec k c)
end

mutual
def Cmd.cancel : Cmd → Core → Core
  | .prim p, c => p.cancel c
  | .compound cs, c => Cmd.cancelList cs c
def Cmd.cancelList : List Cmd → Core → Core
  | [], c => c
  | k :: ks, c => Cmd.cancel k (Cmd.cancelList ks c)
end

mutual
def Cmd.flatten : Cmd → List Prim
  | .prim p => [p]
  | .compound cs => Cmd.flattenList cs
def Cmd.flattenList : List Cmd → List Prim
  | [] => []
  | k :: ks => Cmd.flatten k ++ Cmd.flattenList ks
end

/-- Forward replay of a primitive sequence. -/
def execAll (ps : List Prim) (c : Core) : Core :=
  ps.foldl (fun acc p => p.exec acc) c

/-- Reverse-order cancellation of a primitive sequence. -/
def cancelAll (ps : List Prim) (c : Core) : Core :=
  ps.foldr (fun p acc => p.cancel acc) c

/-- `PCreated c p c'`: primitive `p` is created by the command factory
against heap-state `c`, leaving `c'` (creation executes immediately).
`UpdateNode` snapshots the node's current state (`node.copyState()`),
`InsertNode` allocates a fresh object and inserts it both into the heap
and the array, `RemoveNode` captures the node reference at `pos`. -/
inductive PCreated : Core → Prim → Core → Prop where
  | update (c : Core) (id : Nat) (u : StateMap)
      (hid : c.hasId id = true) :
      PCreated c (.update id (c.stateOf id) u)
        ((Prim.update id (c.stateOf id) u).exec c)
  | insert (c : Core) (id : Nat) (n : PNode) (pos : Nat)
      (hfresh : c.hasId id = false)
      (hpos : pos ≤ c.seq.length)
      (hkeys : (keysOf n.state).Nodup) :
      PCreated c (.insert id n pos) ⟨c.pool ++ [(id, n)], spliceIn c.seq pos id⟩
  | remove (c : Core) (pos : Nat) (cid : Nat)
      (hpos : pos < c.seq.length)
      (hcid : c.seq[pos]? = some cid) :
      PCreated c (.remove pos cid) ((Prim.remove pos cid).exec c)

/-- A list of primitives created in sequence, each against the state the
previous one left behind (eager execution). -/
inductive Chain : Core → List Prim → Core → Prop where
  | nil (c : Core) : Chain c [] c
  | cons {c c' c'' : Core} {p : Prim} {ps : List Prim}
      (hp : PCreated c p c') (hc : Chain c' ps c'') : Chain c (p :: ps) c''

/-- A command (possibly compound) created eagerly against `c`: its
flattened primitives form a creation chain. `CF.compose` of commands
created in sequence satisfies this by construction. -/
def CmdCreated (c : Core) (k : Cmd) (c' : Core) : Prop :=
  Chain c k.flatten c'

/-! ### Invariants along creation chains

The round-trip argument for undo/redo tracks three facts: the surface
array is restored exactly (array splices invert perfectly), the heap's
structural shape (ids, class tags, state key lists) never changes during
replay (every merge writes only keys the state already has), and state
values agree on all keys the reference state has. -/

def entryShape (e : Nat × PNode) : Nat × Variant × List String :=
  (e.1, e.2.variant, keysOf e.2.state)

def shapeOf (c : Core) : List (Nat × Variant × List String) :=
  c.pool.map entryShape

/-- The creation effect of `CF.insertNode`: allocate the node object in
the heap, splice its id into the array. -/
def Core.alloc (c : Core) (id : Nat) (n : PNode) (pos : Nat) : Core :=
  ⟨c.pool ++ [(id, n)], spliceIn c.seq pos id⟩

/-! ### History (undo/redo state machine) and the editor loop -/

/-- A command as stored on the history stack: `Editor#execute` attaches
the selection snapshots `selBefore`/`selAfter` before and after the
handler ran. -/
structure HCmd where
  cmd : Cmd
  selBefore : Sel
  selAfter : Sel

/-- `Piotr.History`: the stack of commands (lower index = earlier) and
the cursor pointing at the last stacked command (`-1` = nothing). -/
structure History where
  stack : List HCmd
  cursor : Int

/-- A fresh history (`new History(editor)`). -/
def History.fresh : History := ⟨[], -1⟩

/-- `History#push`: `cursor++`; `stack[cursor] = cmd`;
`stack.splice(cursor + 1)` erases all subsequent commands. -/
def History.push (h : History) (k : HCmd) : History :=
  ⟨h.stack.take (h.cursor + 1).toNat ++ [k], h.cursor + 1⟩

/-- `History#canUndo`: `cursor >= 0`. -/
def History.canUndo (h : History) : Bool := h.cursor ≥ 0

/-- `History#canRedo`: `cursor < stack.length - 1`. -/
def History.canRedo (h : History) : Bool :=
  h.cursor < (h.stack.length : Int) - 1

/-- The editor-level state: the heap/array (`core`), the selection, and
the history. -/
structure EState where
  core : Core
  sel : Sel
  hist : History

/-- `History#undo`: if possible, cancel the command at the cursor,
restore the selection snapshot taken before it ran, decrement the
cursor. -/
def EState.undo (s : EState) : EState :=
  if s.hist.canUndo then
    match s.hist.stack[s.hist.cursor.toNat]? with
    | some k =>
        ⟨k.cmd.cancel s.core, k.selBefore, ⟨s.hist.stack, s.hist.cursor - 1⟩⟩
    | none => s  -- unreachable: the cursor always points into the stack
  else s

/-- `History#redo`: if possible, increment the cursor, re-execute the
command now at the cursor, restore the selection snapshot taken after it
ran. -/
def EState.redo (s : EState) : EState :=
  if s.hist.canRedo then
    match s.hist.stack[(s.hist.cursor + 1).toNat]? with
    | some k =>
        ⟨k.cmd.exec s.core, k.selAfter, ⟨s.hist.stack, s.hist.cursor + 1⟩⟩
    | none => s
  else s

/-- `Editor#execute` steps: each step snapshots the selection
(`selBefore`), runs a handler that eagerly creates and executes a
command (and may move the selection to `sa`), pushes the command, and
records `selAfter`. -/
inductive Pushes : EState → List (Cmd × Sel) → EState → Prop where
  | nil (s : EState) : Pushes s [] s
  | cons {s : EState} {c : Cmd} {core' : Core} {sa : Sel}
      {rest : List (Cmd × Sel)} {t : EState}
      (hcr : CmdCreated s.core c core')
      (hrest : Pushes ⟨core', sa, s.hist.push ⟨c, s.sel, sa⟩⟩ rest t) :
      Pushes s ((c, sa) :: rest) t

/-- Selection snapshots chained across a run of pushed commands. -/
def SelLink : Sel → List HCmd → Sel → Prop
  | s0, [], sEnd => sEnd = s0
  | s0, k :: ks, sEnd => k.selBefore = s0 ∧ SelLink k.selAfter ks sEnd

/-- The selection after undoing a whole run (the first command's
`selBefore`, or the current selection when the run is empty). -/
def selAfterUndo (ks : List HCmd) (sel : Sel) : Sel :=
  match ks with
  | [] => sel
  | k :: _ => k.selBefore

/-- The selection after redoing a whole run (the last command's
`selAfter`, or the current selection when the run is empty). -/
def selAfterRedo (ks : List HCmd) (sel : Sel) : Sel :=
  match ks with
  | [] => sel
  | k :: rest => selAfterRedo rest k.selAfter

/-- The observable contents of the surface's node sequence: each node's
class tag and state, in array order. -/
def nodesOf (c : Core) : List PNode := c.seq.map (fun id => c.nodeOf id)

/-! ### Command factory constructors and document transforms

Each constructor mirrors the source exactly: it builds the command and
executes it immediately (eager execution), returning the command
together with the state it leaves behind. -/

namespace CF

/-- `CF.updateNode(node, update)`: snapshots `node.copyState()` at
creation, then merges the update into the node's state (re-rendering is
modelled separately, see `UNodeCmd`). -/
def updateNode (c : Core) (id : Nat) (u : StateMap) : Cmd × Core :=
  (.prim (Prim.update id (c.stateOf id) u),
   (Prim.update id (c.stateOf id) u).exec c)

/-- `CF.insertNode(surface, node, pos)`: allocates the node object and
inserts it into the array at `pos`. -/
def insertNode (c : Core) (id : Nat) (n : PNode) (pos : Nat) : Cmd × Core :=
  (.prim (Prim.insert id n pos), c.alloc id n pos)

/-- `CF.removeNode(surface, pos)`: captures `surface.nodes[pos]` and
removes it from the array. -/
def removeNode (c : Core) (pos : Nat) : Cmd × Core :=
  (.prim (Prim.remove pos (c.idAt pos)),
   (Prim.remove pos (c.idAt pos)).exec c)

end CF

namespace Transforms

/-- `Transforms.splitTextNode(surface, nodeid, offset)`: clone the node
(`clone()` yields a fresh instance of the same variant, state not
copied), set the clone's text to the suffix directly, then update the
original to the prefix and insert the clone right after. -/
def splitTextNode (c : Core) (nodeid : Nat) (offset : Nat) : Cmd × Core :=
  let id := c.idAt nodeid
  let node := c.nodeOf id
  let text1 := strTake (stateText node.state) offset
  let text2 := strDrop (stateText node.state) offset
  let newnode : PNode :=
    ⟨node.variant, setKey (initialState node.variant) "text" (.str text2)⟩
  let r1 := CF.updateNode c id [("text", .str text1)]
  let r2 := CF.insertNode r1.2 (freshId c) newnode (nodeid + 1)
  (.compound [r1.1, r2.1], r2.2)

/-- `Transforms.removeTextSlice(node, start, end)`: removes the
characters in the half-open interval. -/
def removeTextSlice (c : Core) (id : Nat) (start stop : Nat) : Cmd × Core :=
  let text := strCat (strTake (stateText (c.stateOf id)) start)
                     (strDrop (stateText (c.stateOf id)) stop)
  CF.updateNode c id [("text", .str text)]

/-- `Transforms.appendText(node, appendState)`. -/
def appendText (c : Core) (id : Nat) (appendState : StateMap) : Cmd × Core :=
  let text := strCat (stateText (c.stateOf id)) (stateText appendState)
  CF.updateNode c id [("text", .str text)]

/-- `Transforms.mergeTextNodes(surface, pos)`: appends node `pos + 1`'s
state text onto node `pos`, then removes node `pos + 1`. No checks. -/
def mergeTextNodes (c : Core) (pos : Nat) : Cmd × Core :=
  let appendState := c.stateOf (c.idAt (pos + 1))
  let r1 := appendText c (c.idAt pos) appendState
  let r2 := CF.removeNode r1.2 (pos + 1)
  (.compound [r1.1, r2.1], r2.2)

/-- `Transforms.insertText(node, text, offset)`. -/
def insertText (c : Core) (id : Nat) (text : String) (offset : Nat) : Cmd × Core :=
  let t := strCat (strCat (strTake (stateText (c.stateOf id)) offset) text)
                  (strDrop (stateText (c.stateOf id)) offset)
  CF.updateNode c id [("text", .str t)]

end Transforms

/-! ### Node behaviors (critical-input handlers) -/

/-- `TextNode`'s `Backspace` behavior. `e` is the presence of a live
input event. Returns the command (if any), the resulting model state,
and the resulting selection. `previous.position` equals
`startNodeIndex - 1` because the surface recomputes every node's
position after each structural change. -/
def textBackspace (c : Core) (sel : Sel) (r : MRange) (e : Bool) :
    Option Cmd × Core × Sel :=
  if r.isCollapsed then
    if r.startOffset == 0 && e then
      if r.startNodeIndex != 0 then
        let previous := c.nodeOf (c.idAt (r.startNodeIndex - 1))
        let caretPos := previous.getLength
        let res : Option Cmd × Core :=
          if previous.variant.isText then
            let m := Transforms.mergeTextNodes c (r.startNodeIndex - 1)
            (some m.1, m.2)
          else if (c.nodeOf (c.idAt r.startNodeIndex)).getLength == 0 then
            let m := CF.removeNode c r.startNodeIndex
            (some m.1, m.2)
          else (none, c)
        (res.1, res.2, Sel.collapse (r.startNodeIndex - 1) caretPos)
      else (none, c, sel)
    else (none, c, sel)
  else if !e then
    let m := Transforms.removeTextSlice c (c.idAt r.startNodeIndex)
      r.startOffset r.endOffset
    (some m.1, m.2, sel)
  else (none, c, sel)

/-- `IsolatedNode`'s `Backspace` behavior: replace the isolated node by
a fresh empty paragraph at the same position, caret to its offset 0. -/
def isolatedBackspace (c : Core) (sel : Sel) (r : MRange) (e : Bool) :
    Option Cmd × Core × Sel :=
  let pos := r.startNodeIndex
  let r1 := CF.removeNode c pos
  let r2 := CF.insertNode r1.2 (freshId r1.2) ⟨.paragraph, initialState .paragraph⟩ pos
  (some (.compound [r1.1, r2.1]), r2.2, if e then Sel.collapse pos 0 else sel)

/-- Dispatch of the `Backspace` behavior on the start node's class
(`instanceof TextNode`). -/
def nodeBackspace (c : Core) (sel : Sel) (r : MRange) (e : Bool) :
    Option Cmd × Core × Sel :=
  if (c.nodeOf (c.idAt r.startNodeIndex)).variant.isText then
    textBackspace c sel r e
  else isolatedBackspace c sel r e

/-- JS `String#split(sep)` on a single character (never returns an empty
list). -/
def splitChar (l : List Char) (sep : Char) : List (List Char) :=
  l.foldr (fun ch acc =>
    match acc with
    | [] => [[ch]]
    | seg :: rest => if ch = sep then [] :: seg :: rest else (ch :: seg) :: rest)
    [[]]

/-- JS `text.replace(/\r/g, "\n")`. -/
def normalizeNewlines (s : String) : String :=
  ⟨s.data.map (fun ch => if ch = '\r' then '\n' else ch)⟩

/-- JS `text.split("\n")`. -/
def splitLines (s : String) : List String :=
  (splitChar s.data '\n').map (fun l => ⟨l⟩)

/-- The loop of the `Paste` handler: one brand-new `ParagraphNode` per
segment, inserted at `base + i`. (In the source the line setting the new
node's text reads `node.state.text = paragraphs[i]` — the distributed
file carries a doubly-encoded no-break space before the `=`.) -/
def pasteLoop (c : Core) (base : Nat) (segs : List String) (i : Nat) :
    List Cmd × Core :=
  match segs with
  | [] => ([], c)
  | seg :: rest =>
      let node : PNode :=
        ⟨.paragraph, setKey (initialState .paragraph) "text" (.str seg)⟩
      let r1 := CF.insertNode c (freshId c) node (base + i)
      let r2 := pasteLoop r1.2 base rest (i + 1)
      (r1.1 :: r2.1, r2.2)

/-- `TextNode`'s `Paste` behavior: plain text only; split the clipboard
text on line breaks, write the final segment into the current node at
the caret offset, insert one new paragraph node per remaining segment at
`startNodeIndex + i`, then place the caret after the written segment. -/
def textPaste (c : Core) (sel : Sel) (r : MRange) (clip : String) :
    Option Cmd × Core × Sel :=
  let text := normalizeNewlines clip
  let paragraphs := splitLines text
  if paragraphs.length = 0 then (none, c, sel)
  else
    let selfId := c.idAt r.startNodeIndex
    let last := paragraphs.getD (paragraphs.length - 1) ""
    let r0 := Transforms.insertText c selfId last r.startOffset
    let rl := pasteLoop r0.2 r.startNodeIndex paragraphs.dropLast 0
    (some (.compound (r0.1 :: rl.1)), rl.2,
     Sel.collapse (r.startNodeIndex + (paragraphs.length - 1)) (strLen last))

/-- Step 1 of `Transforms.removeRange`: remove `n` times the node at the
fixed position `start + 1`. -/
def removeInterior (c : Core) (start : Nat) (n : Nat) : List Cmd × Core :=
  match n with
  | 0 => ([], c)
  | m + 1 =>
      let r1 := CF.removeNode c (start + 1)
      let r2 := removeInterior r1.2 start m
      (r1.1 :: r2.1, r2.2)

/-- `Transforms.removeRange(r)`: remove the interior nodes at the fixed
position `startNodeIndex + 1`, then either strip the start node's
suffix and the end node's prefix via their (event-less) `Backspace`
behaviors and merge the two remaining nodes, or — for a single-node
range — run one `Backspace` over the offsets. The start-node command is
pushed unconditionally (`undefined` included, as in the source); the
end-node command only when the handler returned one. The source wraps
the collected list in `CF.compose`. -/
def removeRange (c : Core) (sel : Sel) (r : MRange) :
    List (Option Cmd) × Core × Sel :=
  let n := r.endNodeIndex - (r.startNodeIndex + 1)
  let step1 := removeInterior c r.startNodeIndex n
  let c1 := step1.2
  let endIdx := r.endNodeIndex - n
  if endIdx ≠ r.startNodeIndex then
    let startLen := (c1.nodeOf (c1.idAt r.startNodeIndex)).getLength
    let s1 := nodeBackspace c1 sel
      ⟨r.startNodeIndex, r.startOffset, r.startNodeIndex, startLen, false⟩ false
    let s2 := nodeBackspace s1.2.1 s1.2.2
      ⟨endIdx, 0, endIdx, r.endOffset, false⟩ false
    let s3 := Transforms.mergeTextNodes s2.2.1 r.startNodeIndex
    (step1.1.map some ++ [s1.1]
      ++ (match s2.1 with | some k => [some k] | none => []) ++ [some s3.1],
     s3.2, s2.2.2)
  else
    let s1 := nodeBackspace c1 sel
      ⟨r.startNodeIndex, r.startOffset, r.startNodeIndex, r.endOffset, false⟩ false
    (step1.1.map some ++ [s1.1], s1.2.1, s1.2.2)

/-! ### The UpdateNode command in execution detail

`CF.updateNode` from the command factory, with its `hasExecuted` counter
and re-render decisions made observable. -/

/-- The data captured by `CF.updateNode(node, update, rerender)`. -/
structure UNodeCmd where
  oldState : StateMap
  upd : StateMap
  rerender : Bool

/-- Creation captures a copy of the node's current state
(`node.copyState()`) as the undo snapshot. -/
def UNodeCmd.make (nodeState : StateMap) (u : StateMap) (rerender : Bool) :
    UNodeCmd :=
  ⟨nodeState, u, rerender⟩

/-- One `execute()` call: merges the update into the state
(`node.updateState(update)`); re-renders iff the flag is set or the
command has already executed; marks the command as executed.
Returns (new node state, didRender, hasExecuted). -/
def UNodeCmd.executeStep (k : UNodeCmd) (hasExecuted : Bool) (st : StateMap) :
    StateMap × Bool × Bool :=
  (objAssign st k.upd, k.rerender || hasExecuted, true)

/-- One `cancel()` call: writes the captured snapshot back
(`node.updateState(oldState)`) and re-renders unconditionally.
Returns (new node state, didRender). -/
def UNodeCmd.cancelStep (k : UNodeCmd) (st : StateMap) : StateMap × Bool :=
  (objAssign st k.oldState, true)

/-! ### Document (de)serialization -/

/-- Property access on a JS value (`undefined` for non-objects and
missing keys). -/
def jGet (j : JValue) (k : String) : Option JValue :=
  match j with
  | .obj fields => getKey fields k
  | _ => none

/-- `hasOwnProperty` on a JS value (false on primitives; a `null` input
would make JS throw a TypeError at the check instead — deserialization
aborts either way). -/
def jHasOwn (j : JValue) (k : String) : Bool :=
  match j with
  | .obj fields => hasKey fields k
  | _ => false

/-- JS truthiness of a possibly-undefined value. -/
def jsTruthy : Option JValue → Bool
  | none => false
  | some .null => false
  | some (.bool b) => b
  | some (.num n) => n != 0
  | some (.str s) => s != ""
  | some (.arr _) => true
  | some (.obj _) => true

/-- The node classes registered in the node registry
(`nodeReg.add(ParagraphNode)`, `nodeReg.add(HeadingNode)`). -/
inductive NodeClass where
  | paragraphC : NodeClass
  | headingC : NodeClass

/-- `NodeRegistry#get`: the class for a registered id, a throw
otherwise. (The message construction in the source references an
undefined variable, so the actual JS throw is a `ReferenceError`; either
way `get` throws for every unregistered id.) -/
def nodeRegGet (t : Option JValue) : Except String NodeClass :=
  match t with
  | some (.str "paragraph") => .ok .paragraphC
  | some (.str "heading") => .ok .headingC
  | _ => .error "Node class does not exist."

/-- `Node#updateState(json.state)` during deserialization:
`Object.assign` for an object state, a no-op for an absent or null
state. (A primitive state would spread its indices in JS; such inputs
are outside the well-formed set considered below.) -/
def stateAssignJ (st : StateMap) (v : Option JValue) : StateMap :=
  match v with
  | some (.obj fields) => objAssign st fields
  | _ => st

/-- `Node.fromJSON` (paragraph) / `HeadingNode.fromJSON`: instantiate
the class — the heading constructor receives `json.level` — then merge
`json.state` onto the initial state. -/
def nodeFromJSON (cls : NodeClass) (j : JValue) : PNode :=
  match cls with
  | .paragraphC =>
      ⟨.paragraph, stateAssignJ (initialState .paragraph) (jGet j "state")⟩
  | .headingC =>
      ⟨.heading (jGet j "level"),
       stateAssignJ (initialState (.heading (jGet j "level"))) (jGet j "state")⟩

/-- A document: a list of nodes plus an optional title (`null` is
`none`). -/
structure Document where
  nodes : List PNode
  title : Option JValue

/-- `Document.nodesFromJSON`: deserializes each listed node in order;
the first unregistered type aborts the whole run. -/
def Document.nodesFromJSON (elems : List JValue) : Except String (List PNode) :=
  match elems with
  | [] => .ok []
  | j :: rest => do
      let cls ← nodeRegGet (jGet j "type")
      let others ← Document.nodesFromJSON rest
      .ok (nodeFromJSON cls j :: others)

/-- `Document.fromJSON`: checks that a `nodes` property exists and is an
array (the source's `typeof json.nodes !== "array"` conjunct is always
true, so the effective check is `instanceof Array`), then deserializes
the nodes and reads a truthy `title`. Any throw aborts with no document
produced. -/
def Document.fromJSON (json : JValue) : Except String Document :=
  if jHasOwn json "nodes" = false then
    .error "A `nodes` property is required."
  else
    match jGet json "nodes" with
    | some (.arr elems) => do
        let nodes ← Document.nodesFromJSON elems
        .ok ⟨nodes, if jsTruthy (jGet json "title") then jGet json "title" else none⟩
    | _ => .error "The `nodes` property must be an array."

/-- `Node#toJSON` / `HeadingNode#toJSON`: a `type`/`state` record, plus
`level` for headings (an `undefined` level is dropped on
serialization). -/
def nodeToJSON (n : PNode) : JValue :=
  match n.variant with
  | .heading (some lv) =>
      .obj [("type", .str "heading"), ("state", .obj n.state), ("level", lv)]
  | .heading none =>
      .obj [("type", .str "heading"), ("state", .obj n.state)]
  | .paragraph => .obj [("type", .str "paragraph"), ("state", .obj n.state)]
  | .isolated => .obj [("type", .str "node"), ("state", .obj n.state)]

/-- `Document#updateTitle`: the text of the first heading with
`level === 1` (strict equality with the number 1), else null. -/
def Document.findTitle (nodes : List PNode) : Option JValue :=
  match nodes with
  | [] => none
  | n :: rest =>
      match n.variant with
      | .heading (some (.num 1)) => getKey n.state "text"
      | _ => Document.findTitle rest

/-- `Document#toJSON`: a `nodes` array, plus a `title` property when
`updateTitle` found one. -/
def Document.toJSON (d : Document) : JValue :=
  match Document.findTitle d.nodes with
  | some v => .obj [("nodes", .arr (d.nodes.map nodeToJSON)), ("title", v)]
  | none => .obj [("nodes", .arr (d.nodes.map nodeToJSON))]

def wC5 : Core :=
  ⟨[(1, ⟨Variant.paragraph, [("text", JValue.str "ab")]⟩),
    (2, ⟨Variant.paragraph, [("text", JValue.str "cd")]⟩)], [1, 2]⟩

def wC6 : Core := ⟨[(5, ⟨Variant.paragraph, [("text", JValue.str "xy")]⟩)], [5]⟩

def wC1core : Core := ⟨[(1, ⟨Variant.paragraph, [("text", JValue.str "a")]⟩)], [1]⟩

def wC1coreB : Core := ⟨[(1, ⟨Variant.paragraph, [("text", JValue.str "b")]⟩)], [1]⟩

def wC1cmd : Cmd :=
  .prim (.update 1 [("text", JValue.str "a")] [("text", JValue.str "b")])

def wC1steps : List (Cmd × Sel) := [(wC1cmd, Sel.collapse 0 1)]

def wC1t : EState :=
  ⟨wC1coreB, Sel.collapse 0 1,
   History.fresh.push ⟨wC1cmd, Sel.collapse 0 0, Sel.collapse 0 1⟩⟩

def wC3 : Core := ⟨[(7, ⟨Variant.paragraph, [("text", JValue.str "hi")]⟩)], [7]⟩

def wC10 : Document :=
  ⟨[⟨Variant.paragraph, [("text", JValue.str "x")]⟩,
    ⟨Variant.heading (some (JValue.num 1)), [("text", JValue.str "T")]⟩], none⟩

theorem getKey_append (s t : StateMap) (q : String) :
    getKey (s ++ t) q =
      match getKey s q with
      | some v => some v
      | none => getKey t q := by
  induction s with
  | nil => simp [getKey]
  | cons p rest ih =>
      obtain ⟨k', v⟩ := p
      by_cases h : k' = q <;> simp [getKey, h, ih]

theorem getKey_setKey (s : StateMap) (k : String) (v : JValue) (q : String) :
    getKey (setKey s k v) q = if k = q then some v else getKey s q := by
  induction s with
  | nil =>
      by_cases h : k = q <;> simp [setKey, getKey, h]
  | cons p rest ih =>
      obtain ⟨k₀, v₀⟩ := p
      by_cases h0 : k₀ = k
      · subst h0
        by_cases hq : k₀ = q <;> simp [setKey, getKey, hq]
      · by_cases hq : k₀ = q
        · subst hq
          have hk : ¬ k = k₀ := fun h => h0 h.symm
          simp [setKey, h0, getKey, hk]
        · simp [setKey, h0, getKey, hq, ih]

theorem hasKey_setKey (s : StateMap) (k : String) (v : JValue) (q : String) :
    hasKey (setKey s k v) q = ((k = q) || hasKey s q) := by
  induction s with
  | nil => simp [setKey, hasKey]
  | cons p rest ih =>
      obtain ⟨k₀, v₀⟩ := p
      by_cases h0 : k₀ = k
      · subst h0
        by_cases hq : k₀ = q <;> simp [setKey, hasKey, hq]
      · by_cases hq : k₀ = q
        · have hqk : ¬ q = k := fun h => h0 (hq.trans h)
          simp [setKey, hasKey, hq, hqk]
        · simp [setKey, h0, hasKey, hq, ih]

theorem keysOf_setKey (s : StateMap) (k : String) (v : JValue) :
    keysOf (setKey s k v) = if hasKey s k then keysOf s else keysOf s ++ [k] := by
  induction s with
  | nil => simp [setKey, keysOf, hasKey]
  | cons p rest ih =>
      obtain ⟨k₀, v₀⟩ := p
      by_cases h0 : k₀ = k
      · subst h0; simp [setKey, keysOf, hasKey]
      · simp only [setKey, if_neg h0, hasKey, keysOf, List.map_cons]
        simp only [keysOf] at ih
        rw [ih]
        by_cases h : hasKey rest k <;> simp [h, h0]

theorem getKey_eq_none_of_not_hasKey (s : StateMap) (q : String)
    (h : hasKey s q = false) : getKey s q = none := by
  induction s with
  | nil => rfl
  | cons p rest ih =>
      obtain ⟨k₀, v₀⟩ := p
      simp only [hasKey, Bool.or_eq_false_iff, decide_eq_false_iff_not] at h
      simp [getKey, h.1, ih h.2]

theorem hasKey_eq_false_of_getKey_eq_none (s : StateMap) (q : String)
    (h : getKey s q = none) : hasKey s q = false := by
  induction s with
  | nil => rfl
  | cons p rest ih =>
      obtain ⟨k₀, v₀⟩ := p
      by_cases h0 : k₀ = q
      · simp [getKey, h0] at h
      · simp [getKey, h0] at h
        simp [hasKey, h0, ih h]

theorem hasKey_iff_mem_keysOf (s : StateMap) (q : String) :
    hasKey s q = true ↔ q ∈ keysOf s := by
  induction s with
  | nil => simp [hasKey, keysOf]
  | cons p rest ih =>
      obtain ⟨k₀, v₀⟩ := p
      simp only [hasKey, keysOf, List.map_cons, List.mem_cons,
        Bool.or_eq_true, decide_eq_true_eq]
      simp only [keysOf] at ih
      rw [← ih]
      constructor
      · rintro (h | h)
        · exact Or.inl h.symm
        · exact Or.inr h
      · rintro (h | h)
        · exact Or.inl h.symm
        · exact Or.inr h

theorem getKey_isSome_of_hasKey (s : StateMap) (q : String)
    (h : hasKey s q = true) : ∃ v, getKey s q = some v := by
  cases hg : getKey s q with
  | some v => exact ⟨v, rfl⟩
  | none => rw [hasKey_eq_false_of_getKey_eq_none s q hg] at h; cases h

theorem getKey_objAssign (s u : StateMap) (q : String) :
    getKey (objAssign s u) q =
      match getKey u.reverse q with
      | some v => some v
      | none => getKey s q := by
  induction u generalizing s with
  | nil => simp [objAssign, getKey]
  | cons p rest ih =>
      obtain ⟨k₀, v₀⟩ := p
      show getKey (objAssign (setKey s k₀ v₀) rest) q = _
      rw [ih]
      have hrev : ((k₀, v₀) :: rest).reverse = rest.reverse ++ [(k₀, v₀)] := by
        simp
      rw [hrev, getKey_append, getKey_setKey]
      cases hfind : getKey rest.reverse q with
      | some v => rfl
      | none =>
          by_cases h : k₀ = q <;> simp [getKey, h]

theorem hasKey_objAssign (s u : StateMap) (q : String) :
    hasKey (objAssign s u) q = (hasKey s q || hasKey u q) := by
  induction u generalizing s with
  | nil => simp [objAssign, hasKey]
  | cons p rest ih =>
      obtain ⟨k₀, v₀⟩ := p
      show hasKey (objAssign (setKey s k₀ v₀) rest) q = _
      rw [ih, hasKey_setKey]
      simp only [hasKey]
      by_cases h : k₀ = q <;> simp [h]

theorem keysOf_objAssign_of_sub (s u : StateMap)
    (h : ∀ q, hasKey u q = true → hasKey s q = true) :
    keysOf (objAssign s u) = keysOf s := by
  induction u generalizing s with
  | nil => rfl
  | cons p rest ih =>
      obtain ⟨k₀, v₀⟩ := p
      show keysOf (objAssign (setKey s k₀ v₀) rest) = _
      have hk : hasKey s k₀ = true := h k₀ (by simp [hasKey])
      have hkeys : keysOf (setKey s k₀ v₀) = keysOf s := by
        rw [keysOf_setKey, if_pos hk]
      rw [ih (setKey s k₀ v₀) ?_, hkeys]
      intro q hq
      rw [hasKey_setKey]
      have := h q (by simp [hasKey, hq])
      simp [this]

theorem nodup_keysOf_setKey (s : StateMap) (k : String) (v : JValue)
    (h : (keysOf s).Nodup) : (keysOf (setKey s k v)).Nodup := by
  rw [keysOf_setKey]
  by_cases hk : hasKey s k
  · simp [hk, h]
  · simp only [hk, if_neg, Bool.false_eq_true, if_false]
    rw [List.nodup_append]
    refine ⟨h, List.nodup_singleton k, ?_⟩
    intro a ha
    simp only [List.mem_singleton]
    intro hak
    subst hak
    rw [← hasKey_iff_mem_keysOf] at ha
    simp [ha] at hk

theorem nodup_keysOf_objAssign (s u : StateMap)
    (h : (keysOf s).Nodup) : (keysOf (objAssign s u)).Nodup := by
  induction u generalizing s with
  | nil => exact h
  | cons p rest ih =>
      exact ih (setKey s p.1 p.2) (nodup_keysOf_setKey s p.1 p.2 h)

theorem AgreeOn.refl (p : StateMap) : AgreeOn p p := fun _ _ => rfl

theorem getKey_reverse_of_nodup (s : StateMap) (q : String)
    (h : (keysOf s).Nodup) : getKey s.reverse q = getKey s q := by
  induction s with
  | nil => rfl
  | cons p rest ih =>
      obtain ⟨k₀, v₀⟩ := p
      simp only [keysOf, List.map_cons, List.nodup_cons] at h
      have hrest := ih h.2
      simp only [List.reverse_cons]
      rw [getKey_append, hrest]
      by_cases hq : k₀ = q
      · subst hq
        have : hasKey rest k₀ = false := by
          by_contra hc
          simp only [Bool.not_eq_false] at hc
          exact h.1 ((hasKey_iff_mem_keysOf rest k₀).mp hc)
        rw [getKey_eq_none_of_not_hasKey rest k₀ this]
        simp [getKey]
      · simp only [getKey, if_neg hq]
        cases hfind : getKey rest q with
        | some v => rfl
        | none => simp [getKey, hq]

/-- Writing a full (duplicate-free) snapshot `o` back restores all of
`o`'s properties, whatever the current state `x` is. -/
theorem agreeOn_objAssign_self (o x : StateMap) (h : (keysOf o).Nodup) :
    AgreeOn o (objAssign x o) := by
  intro k hk
  rw [getKey_objAssign, getKey_reverse_of_nodup o k h]
  obtain ⟨v, hv⟩ := getKey_isSome_of_hasKey o k hk
  simp [hv]

theorem hasKey_reverse (s : StateMap) (q : String) :
    hasKey s.reverse q = hasKey s q := by
  by_cases h : hasKey s q = true
  · have := (hasKey_iff_mem_keysOf s q).mp h
    have hm : q ∈ keysOf s.reverse := by
      simpa [keysOf] using this
    rw [(hasKey_iff_mem_keysOf s.reverse q).mpr hm, h]
  · simp only [Bool.not_eq_true] at h
    have : ¬ q ∈ keysOf s := fun hm => by
      rw [(hasKey_iff_mem_keysOf s q).mpr hm] at h; cases h
    have hm : ¬ q ∈ keysOf s.reverse := by
      simpa [keysOf] using this
    rw [h]
    by_contra hc
    simp only [Bool.not_eq_false] at hc
    exact hm ((hasKey_iff_mem_keysOf s.reverse q).mp hc)

/-- Merging the same update into two states that agree on the first
state's properties yields states that agree on the merged properties. -/
theorem agreeOn_objAssign_congr (p x u : StateMap) (h : AgreeOn p x) :
    AgreeOn (objAssign p u) (objAssign x u) := by
  intro k hk
  rw [getKey_objAssign, getKey_objAssign]
  cases hfind : getKey u.reverse k with
  | some v => rfl
  | none =>
      simp only
      have hku : hasKey u k = false := by
        rw [← hasKey_reverse]
        exact hasKey_eq_false_of_getKey_eq_none _ _ hfind
      have hkp : hasKey p k = true := by
        rw [hasKey_objAssign] at hk
        simpa [hku] using hk
      exact h k hkp

theorem strCat_take_drop (s : String) (n : Nat) :
    strCat (strTake s n) (strDrop s n) = s := by
  cases s with
  | mk data => simp [strCat, strTake, strDrop]

theorem length_spliceIn (l : List α) (pos : Nat) (a : α) (h : pos ≤ l.length) :
    (spliceIn l pos a).length = l.length + 1 := by
  simp [spliceIn]
  omega

theorem spliceIn_zero (l : List α) (a : α) : spliceIn l 0 a = a :: l := by
  simp [spliceIn]

theorem spliceIn_cons_succ (x : α) (xs : List α) (n : Nat) (a : α) :
    spliceIn (x :: xs) (n + 1) a = x :: spliceIn xs n a := by
  simp [spliceIn]

theorem spliceOut_zero (l : List α) : spliceOut l 0 = l.drop 1 := by
  simp [spliceOut]

theorem spliceOut_cons_succ (x : α) (xs : List α) (n : Nat) :
    spliceOut (x :: xs) (n + 1) = x :: spliceOut xs n := by
  simp [spliceOut]

theorem spliceOut_spliceIn (l : List α) (pos : Nat) (a : α) (h : pos ≤ l.length) :
    spliceOut (spliceIn l pos a) pos = l := by
  induction pos generalizing l with
  | zero => simp [spliceIn_zero, spliceOut_zero]
  | succ n ih =>
      cases l with
      | nil => simp at h
      | cons x xs =>
          rw [spliceIn_cons_succ, spliceOut_cons_succ, ih xs (by simpa using h)]

theorem spliceIn_spliceOut (l : List α) (pos : Nat) (a : α)
    (h : pos < l.length) (ha : l[pos]? = some a) :
    spliceIn (spliceOut l pos) pos a = l := by
  induction pos generalizing l with
  | zero =>
      cases l with
      | nil => simp at h
      | cons x xs =>
          simp only [List.getElem?_cons_zero, Option.some.injEq] at ha
          subst ha
          simp [spliceOut_zero, spliceIn_zero]
  | succ n ih =>
      cases l with
      | nil => simp at h
      | cons x xs =>
          rw [spliceOut_cons_succ, spliceIn_cons_succ,
            ih xs (by simpa using h) (by simpa using ha)]

theorem poolSet_fst (e : Nat × PNode) (id : Nat) (f : StateMap → StateMap) :
    (if e.1 = id then ((e.1, ⟨e.2.variant, f e.2.state⟩) : Nat × PNode) else e).1
      = e.1 := by
  by_cases h : e.1 = id <;> simp [h]

theorem poolHas_poolSet (pool : Pool) (id : Nat) (f : StateMap → StateMap)
    (id' : Nat) : poolHas (poolSet pool id f) id' = poolHas pool id' := by
  induction pool with
  | nil => rfl
  | cons e rest ih =>
      simp only [poolSet, List.map_cons, poolHas, List.any_cons] at ih ⊢
      rw [poolSet_fst e id f, ih]

theorem poolFind_poolSet_self (pool : Pool) (id : Nat)
    (f : StateMap → StateMap) (h : poolHas pool id = true) :
    poolFind (poolSet pool id f) id
      = ⟨(poolFind pool id).variant, f (poolFind pool id).state⟩ := by
  induction pool with
  | nil => simp [poolHas] at h
  | cons e rest ih =>
      by_cases he : e.1 = id
      · simp [poolSet, poolFind, List.find?, he]
      · have h' : poolHas rest id = true := by
          simp only [poolHas, List.any_cons, Bool.or_eq_true,
            decide_eq_true_eq] at h
          rcases h with h | h
          · exact absurd h he
          · simpa [poolHas] using h
        have hd : (decide (e.1 = id)) = false := by simp [he]
        simp only [poolSet, List.map_cons, if_neg he]
        simp only [poolFind, List.find?, hd]
        simpa [poolFind, poolSet] using ih h'

theorem poolFind_poolSet_other (pool : Pool) (id : Nat)
    (f : StateMap → StateMap) (id' : Nat) (h : id' ≠ id) :
    poolFind (poolSet pool id f) id' = poolFind pool id' := by
  induction pool with
  | nil => rfl
  | cons e rest ih =>
      by_cases he : e.1 = id
      · have hne : ¬ e.1 = id' := fun hc => h (hc ▸ he)
        have hd : (decide (e.1 = id')) = false := by simp [hne]
        simp only [poolSet, List.map_cons, if_pos he]
        simp only [poolFind, List.find?, hd]
        simpa [poolFind, poolSet] using ih
      · simp only [poolSet, List.map_cons, if_neg he]
        by_cases he' : e.1 = id'
        · simp [poolFind, List.find?, he']
        · have hd : (decide (e.1 = id')) = false := by simp [he']
          simp only [poolFind, List.find?, hd]
          simpa [poolFind, poolSet] using ih

theorem poolSet_map_fst (pool : Pool) (id : Nat) (f : StateMap → StateMap) :
    (poolSet pool id f).map (fun e => e.1) = pool.map (fun e => e.1) := by
  induction pool with
  | nil => rfl
  | cons e rest ih =>
      simp only [poolSet, List.map_cons] at ih ⊢
      rw [poolSet_fst e id f, ih]

theorem poolHas_append (pool : Pool) (e : Nat × PNode) (id : Nat) :
    poolHas (pool ++ [e]) id = (poolHas pool id || (e.1 = id)) := by
  induction pool with
  | nil => simp [poolHas]
  | cons x rest ih =>
      show poolHas ((x :: rest) ++ [e]) id = _
      simp only [List.cons_append, poolHas, List.any_cons]
      simp only [poolHas] at ih
      rw [ih, Bool.or_assoc]

theorem poolFind_append_of_has (pool : Pool) (e : Nat × PNode) (id : Nat)
    (h : poolHas pool id = true) :
    poolFind (pool ++ [e]) id = poolFind pool id := by
  induction pool with
  | nil => simp [poolHas] at h
  | cons x rest ih =>
      by_cases hx : x.1 = id
      · simp [poolFind, List.find?, hx]
      · simp only [poolHas, List.any_cons, Bool.or_eq_true,
          decide_eq_true_eq] at h
        rcases h with h | h
        · exact absurd h hx
        · have hd : (decide (x.1 = id)) = false := by simp [hx]
          simp only [List.cons_append, poolFind, List.find?, hd]
          simpa [poolFind] using ih h

theorem poolFind_append_self (pool : Pool) (id : Nat) (n : PNode)
    (h : poolHas pool id = false) :
    poolFind (pool ++ [(id, n)]) id = n := by
  induction pool with
  | nil => simp [poolFind, List.find?]
  | cons x rest ih =>
      simp only [poolHas, List.any_cons, Bool.or_eq_false_iff,
        decide_eq_false_iff_not] at h
      have hd : (decide (x.1 = id)) = false := by simp [h.1]
      simp only [List.cons_append, poolFind, List.find?, hd]
      simpa [poolFind] using ih h.2

/-! Core-level wrappers. -/

theorem Core.hasId_def (c : Core) (id : Nat) :
    c.hasId id = poolHas c.pool id := rfl

theorem Core.nodeOf_def (c : Core) (id : Nat) :
    c.nodeOf id = poolFind c.pool id := rfl

theorem Core.withState_def (c : Core) (id : Nat) (f : StateMap → StateMap) :
    c.withState id f = ⟨poolSet c.pool id f, c.seq⟩ := rfl

theorem freshId_gt (c : Core) : ∀ e ∈ c.pool, e.1 < freshId c := by
  unfold freshId
  induction c.pool with
  | nil => intro e he; cases he
  | cons x rest ih =>
      intro e he
      rcases List.mem_cons.mp he with h | h
      · subst h; simp only [List.foldr_cons]; omega
      · have := ih e h
        simp only [List.foldr_cons]
        omega

theorem freshId_not_hasId (c : Core) : c.hasId (freshId c) = false := by
  rw [Core.hasId_def]
  by_contra h
  simp only [Bool.not_eq_false, poolHas, List.any_eq_true,
    decide_eq_true_eq] at h
  obtain ⟨e, he, heq⟩ := h
  have := freshId_gt c e he
  omega

theorem execAll_append (ps qs : List Prim) (c : Core) :
    execAll (ps ++ qs) c = execAll qs (execAll ps c) := by
  simp [execAll, List.foldl_append]

theorem cancelAll_append (ps qs : List Prim) (c : Core) :
    cancelAll (ps ++ qs) c = cancelAll ps (cancelAll qs c) := by
  simp [cancelAll, List.foldr_append]

mutual
theorem Cmd.exec_eq_flatten : ∀ (k : Cmd) (c : Core),
    k.exec c = execAll k.flatten c
  | .prim p, c => by simp [Cmd.exec, Cmd.flatten, execAll]
  | .compound cs, c => by
      rw [show (Cmd.compound cs).exec c = Cmd.execList cs c from rfl,
        show (Cmd.compound cs).flatten = Cmd.flattenList cs from rfl]
      exact Cmd.execList_eq_flatten cs c
theorem Cmd.execList_eq_flatten : ∀ (ks : List Cmd) (c : Core),
    Cmd.execList ks c = execAll (Cmd.flattenList ks) c
  | [], c => by simp [Cmd.execList, Cmd.flattenList, execAll]
  | k :: ks, c => by
      rw [show Cmd.execList (k :: ks) c = Cmd.execList ks (k.exec c) from rfl,
        show Cmd.flattenList (k :: ks) = k.flatten ++ Cmd.flattenList ks from rfl,
        execAll_append, ← Cmd.exec_eq_flatten k c]
      exact Cmd.execList_eq_flatten ks (k.exec c)
end

mutual
theorem Cmd.cancel_eq_flatten : ∀ (k : Cmd) (c : Core),
    k.cancel c = cancelAll k.flatten c
  | .prim p, c => by simp [Cmd.cancel, Cmd.flatten, cancelAll]
  | .compound cs, c => by
      rw [show (Cmd.compound cs).cancel c = Cmd.cancelList cs c from rfl,
        show (Cmd.compound cs).flatten = Cmd.flattenList cs from rfl]
      exact Cmd.cancelList_eq_flatten cs c
theorem Cmd.cancelList_eq_flatten : ∀ (ks : List Cmd) (c : Core),
    Cmd.cancelList ks c = cancelAll (Cmd.flattenList ks) c
  | [], c => by simp [Cmd.cancelList, Cmd.flattenList, cancelAll]
  | k :: ks, c => by
      rw [show Cmd.cancelList (k :: ks) c = k.cancel (Cmd.cancelList ks c) from rfl,
        show Cmd.flattenList (k :: ks) = k.flatten ++ Cmd.flattenList ks from rfl,
        cancelAll_append, ← Cmd.cancelList_eq_flatten ks c]
      exact Cmd.cancel_eq_flatten k (Cmd.cancelList ks c)
end

theorem Chain.append {a b c : Core} {ps qs : List Prim}
    (h1 : Chain a ps b) (h2 : Chain b qs c) : Chain a (ps ++ qs) c := by
  induction h1 with
  | nil => simpa using h2
  | cons hp hc ih => exact Chain.cons hp (ih h2)

theorem poolSet_of_not_has (pool : Pool) (id : Nat) (f : StateMap → StateMap)
    (h : poolHas pool id = false) : poolSet pool id f = pool := by
  induction pool with
  | nil => rfl
  | cons e rest ih =>
      simp only [poolHas, List.any_cons, Bool.or_eq_false_iff,
        decide_eq_false_iff_not] at h
      have hrest := ih h.2
      simp only [poolSet] at hrest
      simp [poolSet, h.1, hrest]

theorem shape_poolSet (pool : Pool) (id : Nat) (f : StateMap → StateMap)
    (hnd : (pool.map (fun e => e.1)).Nodup)
    (hf : keysOf (f (poolFind pool id).state) = keysOf (poolFind pool id).state) :
    (poolSet pool id f).map entryShape = pool.map entryShape := by
  induction pool with
  | nil => rfl
  | cons e rest ih =>
      simp only [List.map_cons, List.nodup_cons] at hnd
      by_cases he : e.1 = id
      · have hrest : poolHas rest id = false := by
          by_contra hc
          simp only [Bool.not_eq_false, poolHas, List.any_eq_true,
            decide_eq_true_eq] at hc
          obtain ⟨e', he', heq⟩ := hc
          exact hnd.1 (he ▸ heq ▸ List.mem_map_of_mem (fun e => e.1) he')
        have hfind : poolFind (e :: rest) id = e.2 := by
          simp [poolFind, List.find?, he]
        rw [hfind] at hf
        have hps := poolSet_of_not_has rest id f hrest
        simp only [poolSet] at hps
        simp only [poolSet, List.map_cons, if_pos he, hps]
        congr 1
        simp [entryShape, hf]
      · have hfind : poolFind (e :: rest) id = poolFind rest id := by
          have hd : (decide (e.1 = id)) = false := by simp [he]
          simp [poolFind, List.find?, hd]
        rw [hfind] at hf
        have hih := ih hnd.2 hf
        simp only [poolSet] at hih
        simp only [poolSet, List.map_cons, if_neg he, hih]

theorem shape_keys_of_eq (pa pb : Pool)
    (h : pa.map entryShape = pb.map entryShape) (id : Nat) :
    poolHas pa id = poolHas pb id
    ∧ keysOf (poolFind pa id).state = keysOf (poolFind pb id).state
    ∧ (poolFind pa id).variant = (poolFind pb id).variant := by
  induction pa generalizing pb with
  | nil =>
      cases pb with
      | nil => exact ⟨rfl, rfl, rfl⟩
      | cons e rb => simp at h
  | cons e ra ih =>
      cases pb with
      | nil => simp at h
      | cons e' rb =>
          simp only [List.map_cons, List.cons.injEq] at h
          have hid : e.1 = e'.1 := by
            have := congrArg (fun q => q.1) h.1
            simpa [entryShape] using this
          have hvar : e.2.variant = e'.2.variant := by
            have := congrArg (fun q => q.2.1) h.1
            simpa [entryShape] using this
          have hkeys : keysOf e.2.state = keysOf e'.2.state := by
            have := congrArg (fun q => q.2.2) h.1
            simpa [entryShape] using this
          obtain ⟨ih1, ih2, ih3⟩ := ih rb h.2
          by_cases he : e.1 = id
          · have he' : e'.1 = id := hid ▸ he
            refine ⟨?_, ?_, ?_⟩
            · simp [poolHas, List.any_cons, he, he']
            · simp [poolFind, List.find?, he, he', hkeys]
            · simp [poolFind, List.find?, he, he', hvar]
          · have he' : ¬ e'.1 = id := fun hc => he (hid ▸ hc)
            have hd : (decide (e.1 = id)) = false := by simp [he]
            have hd' : (decide (e'.1 = id)) = false := by simp [he']
            refine ⟨?_, ?_, ?_⟩
            · simpa [poolHas, List.any_cons, he, he'] using ih1
            · simpa [poolFind, List.find?, hd, hd'] using ih2
            · simpa [poolFind, List.find?, hd, hd'] using ih3

theorem WfCore.nodup_stateOf (c : Core) (hwf : WfCore c) (id : Nat) :
    (keysOf (c.stateOf id)).Nodup := by
  unfold Core.stateOf Core.nodeOf
  cases hfind : c.pool.find? (fun e => e.1 = id) with
  | none => simp [keysOf]
  | some e =>
      have := List.find?_some hfind
      exact hwf.2 e (List.mem_of_find?_eq_some hfind)

/-! Core-level accessor lemmas. -/

theorem Core.seq_withState (c : Core) (id : Nat) (f : StateMap → StateMap) :
    (c.withState id f).seq = c.seq := rfl

theorem Core.pool_withState (c : Core) (id : Nat) (f : StateMap → StateMap) :
    (c.withState id f).pool = poolSet c.pool id f := rfl

theorem Core.hasId_withState (c : Core) (id : Nat) (f : StateMap → StateMap)
    (id' : Nat) : (c.withState id f).hasId id' = c.hasId id' := by
  rw [Core.hasId_def, Core.pool_withState, poolHas_poolSet, Core.hasId_def]

theorem Core.stateOf_withState_self (c : Core) (id : Nat)
    (f : StateMap → StateMap) (h : c.hasId id = true) :
    (c.withState id f).stateOf id = f (c.stateOf id) := by
  unfold Core.stateOf
  rw [Core.nodeOf_def, Core.nodeOf_def, Core.pool_withState,
    poolFind_poolSet_self c.pool id f (by rw [← Core.hasId_def]; exact h)]

theorem Core.stateOf_withState_other (c : Core) (id : Nat)
    (f : StateMap → StateMap) (id' : Nat) (h : id' ≠ id) :
    (c.withState id f).stateOf id' = c.stateOf id' := by
  unfold Core.stateOf
  rw [Core.nodeOf_def, Core.nodeOf_def, Core.pool_withState,
    poolFind_poolSet_other c.pool id f id' h]

theorem Core.variant_withState (c : Core) (id : Nat)
    (f : StateMap → StateMap) (id' : Nat) :
    ((c.withState id f).nodeOf id').variant = (c.nodeOf id').variant := by
  by_cases hh : id' = id
  · subst hh
    by_cases h : c.hasId id' = true
    · rw [Core.nodeOf_def, Core.pool_withState,
        poolFind_poolSet_self c.pool id' f (by rw [← Core.hasId_def]; exact h),
        Core.nodeOf_def]
    · have h' : poolHas c.pool id' = false := by
        rw [← Core.hasId_def]; simpa using h
      rw [Core.nodeOf_def, Core.pool_withState, poolSet_of_not_has c.pool id' f h',
        Core.nodeOf_def]
  · rw [Core.nodeOf_def, Core.pool_withState,
      poolFind_poolSet_other c.pool id f id' hh, Core.nodeOf_def]

theorem Core.hasId_alloc (c : Core) (id : Nat) (n : PNode) (pos : Nat)
    (id' : Nat) : (c.alloc id n pos).hasId id' = (c.hasId id' || (id = id')) := by
  rw [Core.hasId_def]
  show poolHas (c.pool ++ [(id, n)]) id' = _
  rw [poolHas_append, Core.hasId_def]

theorem Core.stateOf_alloc_of_has (c : Core) (id : Nat) (n : PNode) (pos : Nat)
    (id' : Nat) (h : c.hasId id' = true) :
    (c.alloc id n pos).stateOf id' = c.stateOf id' := by
  unfold Core.stateOf
  rw [Core.nodeOf_def, Core.nodeOf_def]
  show (poolFind (c.pool ++ [(id, n)]) id').state = _
  rw [poolFind_append_of_has c.pool (id, n) id' (by rw [← Core.hasId_def]; exact h)]

theorem Core.nodeOf_alloc_self (c : Core) (id : Nat) (n : PNode) (pos : Nat)
    (h : c.hasId id = false) : (c.alloc id n pos).nodeOf id = n := by
  rw [Core.nodeOf_def]
  show poolFind (c.pool ++ [(id, n)]) id = n
  exact poolFind_append_self c.pool id n (by rw [← Core.hasId_def]; exact h)

theorem Core.nodeOf_alloc_of_has (c : Core) (id : Nat) (n : PNode) (pos : Nat)
    (id' : Nat) (h : c.hasId id' = true) :
    (c.alloc id n pos).nodeOf id' = c.nodeOf id' := by
  rw [Core.nodeOf_def, Core.nodeOf_def]
  show poolFind (c.pool ++ [(id, n)]) id' = _
  exact poolFind_append_of_has c.pool (id, n) id' (by rw [← Core.hasId_def]; exact h)

theorem PCreated.wf_step {c c' : Core} {p : Prim} (h : PCreated c p c')
    (hwf : WfCore c) : WfCore c' := by
  cases h with
  | update id u hid =>
      constructor
      · show ((c.withState id _).pool.map (fun e => e.1)).Nodup
        rw [Core.pool_withState, poolSet_map_fst]
        exact hwf.1
      · intro e he
        rw [show ((Prim.update id (c.stateOf id) u).exec c).pool
            = poolSet c.pool id (fun st => objAssign st u) from rfl] at he
        simp only [poolSet, List.mem_map] at he
        obtain ⟨e₀, he₀, heq⟩ := he
        by_cases h0 : e₀.1 = id
        · rw [if_pos h0] at heq
          subst heq
          exact nodup_keysOf_objAssign _ _ (hwf.2 e₀ he₀)
        · rw [if_neg h0] at heq
          subst heq
          exact hwf.2 e₀ he₀
  | insert id n pos hfresh hpos hkeys =>
      constructor
      · show ((c.pool ++ [(id, n)]).map (fun e => e.1)).Nodup
        rw [List.map_append]
        simp only [List.map_cons, List.map_nil]
        rw [List.nodup_append]
        refine ⟨hwf.1, List.nodup_singleton id, ?_⟩
        intro a ha
        simp only [List.mem_singleton]
        intro hak
        obtain ⟨e, he, heq⟩ := List.mem_map.mp ha
        have hhas : poolHas c.pool id = true := by
          simp only [poolHas, List.any_eq_true, decide_eq_true_eq]
          exact ⟨e, he, heq.trans hak⟩
        rw [Core.hasId_def] at hfresh
        rw [hhas] at hfresh
        cases hfresh
      · intro e he
        rcases List.mem_append.mp he with h | h
        · exact hwf.2 e h
        · simp only [List.mem_singleton] at h
          subst h
          exact hkeys
  | remove pos cid hpos hcid => exact hwf

theorem Chain.wf_all {s t : Core} {ps : List Prim} (h : Chain s ps t)
    (hwf : WfCore s) : WfCore t := by
  induction h with
  | nil => exact hwf
  | cons hp hc ih => exact ih (hp.wf_step hwf)

theorem PCreated.hasId_mono_step {c c' : Core} {p : Prim} (h : PCreated c p c')
    {id : Nat} (hid : c.hasId id = true) : c'.hasId id = true := by
  cases h with
  | update id' u hid' =>
      show (c.withState id' _).hasId id = true
      rw [Core.hasId_withState]; exact hid
  | insert id' n pos hfresh hpos hkeys =>
      show (c.alloc id' n pos).hasId id = true
      rw [Core.hasId_alloc, hid]
      rfl
  | remove pos cid hpos hcid => exact hid

theorem Chain.hasId_mono_all {s t : Core} {ps : List Prim} (h : Chain s ps t)
    {id : Nat} (hid : s.hasId id = true) : t.hasId id = true := by
  induction h with
  | nil => exact hid
  | cons hp hc ih => exact ih (hp.hasId_mono_step hid)

theorem PCreated.keys_mono_step {c c' : Core} {p : Prim} (h : PCreated c p c')
    {id : Nat} (hid : c.hasId id = true) {k : String}
    (hk : hasKey (c.stateOf id) k = true) : hasKey (c'.stateOf id) k = true := by
  cases h with
  | update id' u hid' =>
      by_cases he : id = id'
      · subst he
        show hasKey ((c.withState id _).stateOf id) k = true
        rw [Core.stateOf_withState_self c id _ hid, hasKey_objAssign, hk]
        rfl
      · show hasKey ((c.withState id' _).stateOf id) k = true
        rw [Core.stateOf_withState_other c id' _ id he]
        exact hk
  | insert id' n pos hfresh hpos hkeys =>
      show hasKey ((c.alloc id' n pos).stateOf id) k = true
      rw [Core.stateOf_alloc_of_has c id' n pos id hid]
      exact hk
  | remove pos cid hpos hcid => exact hk

theorem Chain.keys_mono_all {s t : Core} {ps : List Prim} (h : Chain s ps t)
    {id : Nat} (hid : s.hasId id = true) {k : String}
    (hk : hasKey (s.stateOf id) k = true) : hasKey (t.stateOf id) k = true := by
  induction h with
  | nil => exact hk
  | cons hp hc ih => exact ih (hp.hasId_mono_step hid) (hp.keys_mono_step hid hk)

theorem Chain.insert_fresh {s t : Core} {ps : List Prim} (h : Chain s ps t)
    {id : Nat} {n : PNode} {pos : Nat} (hmem : Prim.insert id n pos ∈ ps) :
    s.hasId id = false := by
  induction h with
  | nil => cases hmem
  | cons hp hc ih =>
      rcases List.mem_cons.mp hmem with hmem | hmem
      · subst hmem
        cases hp with
        | insert id' n' pos' hfresh hpos hkeys => exact hfresh
      · by_contra hc'
        simp only [Bool.not_eq_false] at hc'
        have h1 := ih hmem
        have h2 := hp.hasId_mono_step hc'
        rw [h1] at h2
        cases h2

theorem cancelAll_cons (p : Prim) (ps : List Prim) (x : Core) :
    cancelAll (p :: ps) x = p.cancel (cancelAll ps x) := rfl

theorem execAll_cons (p : Prim) (ps : List Prim) (x : Core) :
    execAll (p :: ps) x = execAll ps (p.exec x) := rfl

theorem hasKey_eq_of_keysOf_eq {a b : StateMap} (h : keysOf a = keysOf b)
    (k : String) : hasKey a k = hasKey b k := by
  by_cases ha : hasKey a k = true
  · rw [ha, (hasKey_iff_mem_keysOf b k).mpr (h ▸ (hasKey_iff_mem_keysOf a k).mp ha)]
  · simp only [Bool.not_eq_true] at ha
    rw [ha]
    by_contra hb
    have hb' : hasKey b k = true := by
      cases hbv : hasKey b k with
      | true => rfl
      | false => rw [hbv] at hb; exact absurd rfl hb
    have : k ∈ keysOf a := h ▸ (hasKey_iff_mem_keysOf b k).mp hb'
    rw [(hasKey_iff_mem_keysOf a k).mpr this] at ha
    cases ha

theorem shapeOf_fst (a : Core) :
    a.pool.map (fun e => e.1) = (shapeOf a).map (fun q => q.1) := by
  simp [shapeOf, entryShape, List.map_map]

theorem shapeOf_spec {a b : Core} (h : shapeOf a = shapeOf b) (id : Nat) :
    a.hasId id = b.hasId id
    ∧ keysOf (a.stateOf id) = keysOf (b.stateOf id)
    ∧ (a.nodeOf id).variant = (b.nodeOf id).variant := by
  have hh := shape_keys_of_eq a.pool b.pool h id
  exact ⟨hh.1, hh.2.1, hh.2.2⟩

theorem Core.shape_withState (c : Core) (id : Nat) (f : StateMap → StateMap)
    (hnd : (c.pool.map (fun e => e.1)).Nodup)
    (hf : keysOf (f (c.stateOf id)) = keysOf (c.stateOf id)) :
    shapeOf (c.withState id f) = shapeOf c :=
  shape_poolSet c.pool id f hnd hf

theorem Core.stateOf_alloc_self (c : Core) (id : Nat) (n : PNode) (pos : Nat)
    (h : c.hasId id = false) : (c.alloc id n pos).stateOf id = n.state := by
  unfold Core.stateOf
  rw [Core.nodeOf_alloc_self c id n pos h]

/-- Undo phase: cancelling a creation chain in reverse order, starting
from any state that agrees with the chain's end state, restores the
array exactly, preserves the heap shape, restores agreement with the
chain's start state, and leaves every node allocated within the chain
agreeing with its state at allocation time. -/
theorem cancelAll_spec {s t : Core} {ps : List Prim} (hch : Chain s ps t) :
    WfCore s → ∀ x : Core, x.seq = t.seq → shapeOf x = shapeOf t →
    (∀ id, t.hasId id = true → AgreeOn (t.stateOf id) (x.stateOf id)) →
    (cancelAll ps x).seq = s.seq
    ∧ shapeOf (cancelAll ps x) = shapeOf t
    ∧ (∀ id, s.hasId id = true → AgreeOn (s.stateOf id) ((cancelAll ps x).stateOf id))
    ∧ (∀ p ∈ ps, ∀ id n pos, p = Prim.insert id n pos →
        AgreeOn n.state ((cancelAll ps x).stateOf id)) := by
  induction hch with
  | nil =>
      intro _ x h1 h2 h3
      exact ⟨h1, h2, h3, by intro p hp; cases hp⟩
  | cons hp hc ih =>
      intro hwf x h1 h2 h3
      rename_i c₀ c₁ t' p ps'
      have hwfT : WfCore t' := hc.wf_all (hp.wf_step hwf)
      obtain ⟨ihseq, ihshape, ihagree, ihfut⟩ := ih (hp.wf_step hwf) x h1 h2 h3
      have hynodup : ((cancelAll ps' x).pool.map (fun e => e.1)).Nodup := by
        rw [shapeOf_fst, ihshape, ← shapeOf_fst]
        exact hwfT.1
      rw [cancelAll_cons]
      cases hp with
      | update id u hid =>
          simp only [Prim.exec] at hc ihseq ihshape ihagree ihfut
          rw [Core.seq_withState] at ihseq
          have hyhas : (cancelAll ps' x).hasId id = true := by
            rw [(shapeOf_spec ihshape id).1]
            exact hc.hasId_mono_all (by rw [Core.hasId_withState]; exact hid)
          have hkeysub : ∀ k, hasKey (c₀.stateOf id) k = true →
              hasKey ((cancelAll ps' x).stateOf id) k = true := by
            intro k hk
            rw [hasKey_eq_of_keysOf_eq (shapeOf_spec ihshape id).2.1 k]
            refine hc.keys_mono_all (by rw [Core.hasId_withState]; exact hid) ?_
            rw [Core.stateOf_withState_self c₀ id _ hid, hasKey_objAssign, hk]
            rfl
          refine ⟨?_, ?_, ?_, ?_⟩
          · simp only [Prim.cancel]
            rw [Core.seq_withState]
            exact ihseq
          · simp only [Prim.cancel]
            rw [Core.shape_withState (cancelAll ps' x) id
              (fun st => objAssign st (c₀.stateOf id)) hynodup
              (keysOf_objAssign_of_sub ((cancelAll ps' x).stateOf id)
                (c₀.stateOf id) hkeysub)]
            exact ihshape
          · intro id' hid'
            by_cases he : id' = id
            · subst he
              simp only [Prim.cancel]
              rw [Core.stateOf_withState_self _ id' _ hyhas]
              exact agreeOn_objAssign_self (c₀.stateOf id')
                ((cancelAll ps' x).stateOf id') (hwf.nodup_stateOf c₀ id')
            · simp only [Prim.cancel]
              rw [Core.stateOf_withState_other _ id _ id' he]
              have hres := ihagree id' (by rw [Core.hasId_withState]; exact hid')
              rw [Core.stateOf_withState_other c₀ id _ id' he] at hres
              exact hres
          · intro p' hp' id₀ n₀ pos₀ heq
            rcases List.mem_cons.mp hp' with hmem | hmem
            · rw [heq] at hmem
              simp at hmem
            · have hfr := hc.insert_fresh (heq ▸ hmem)
              have hne : id₀ ≠ id := by
                intro hcq
                subst hcq
                rw [Core.hasId_withState, hid] at hfr
                cases hfr
              simp only [Prim.cancel]
              rw [Core.stateOf_withState_other _ id _ id₀ hne]
              exact ihfut _ hmem id₀ n₀ pos₀ heq
      | insert id n pos hfresh hpos hkeys =>
          rw [show (⟨c₀.pool ++ [(id, n)], spliceIn c₀.seq pos id⟩ : Core)
              = c₀.alloc id n pos from rfl] at ihagree
          refine ⟨?_, ?_, ?_, ?_⟩
          · simp only [Prim.cancel]
            show spliceOut (cancelAll ps' x).seq pos = c₀.seq
            rw [ihseq]
            show spliceOut (spliceIn c₀.seq pos id) pos = c₀.seq
            exact spliceOut_spliceIn c₀.seq pos id hpos
          · exact ihshape
          · intro id' hid'
            have hres := ihagree id' (by rw [Core.hasId_alloc, hid']; rfl)
            rw [Core.stateOf_alloc_of_has c₀ id n pos id' hid'] at hres
            exact hres
          · intro p' hp' id₀ n₀ pos₀ heq
            rcases List.mem_cons.mp hp' with hmem | hmem
            · rw [heq] at hmem
              injection hmem with e1 e2 e3
              subst e1; subst e2
              have hres := ihagree id₀ (by rw [Core.hasId_alloc]; simp)
              rw [Core.stateOf_alloc_self c₀ id₀ n₀ pos hfresh] at hres
              exact hres
            · exact ihfut _ hmem id₀ n₀ pos₀ heq
      | remove pos cid hpos hcid =>
          simp only [Prim.exec] at hc ihseq ihshape ihagree ihfut
          refine ⟨?_, ihshape, ?_, ?_⟩
          · simp only [Prim.cancel]
            show spliceIn (cancelAll ps' x).seq pos cid = c₀.seq
            rw [ihseq]
            exact spliceIn_spliceOut c₀.seq pos cid hpos hcid
          · intro id' hid'
            exact ihagree id' hid'
          · intro p' hp' id₀ n₀ pos₀ heq
            rcases List.mem_cons.mp hp' with hmem | hmem
            · rw [heq] at hmem
              simp at hmem
            · exact ihfut _ hmem id₀ n₀ pos₀ heq

/-- Redo phase: re-executing a creation chain forward from any state
that agrees with the chain's start (and whose allocated-in-chain nodes
agree with their allocation-time states) reproduces agreement with the
chain's end state, with the array restored exactly. -/
theorem execAll_spec {s t : Core} {ps : List Prim} (hch : Chain s ps t) :
    WfCore s → ∀ x : Core, x.seq = s.seq → shapeOf x = shapeOf t →
    (∀ id, s.hasId id = true → AgreeOn (s.stateOf id) (x.stateOf id)) →
    (∀ p ∈ ps, ∀ id n pos, p = Prim.insert id n pos →
        AgreeOn n.state (x.stateOf id)) →
    (execAll ps x).seq = t.seq
    ∧ shapeOf (execAll ps x) = shapeOf t
    ∧ (∀ id, t.hasId id = true → AgreeOn (t.stateOf id) ((execAll ps x).stateOf id)) := by
  induction hch with
  | nil =>
      intro _ x h1 h2 h3 _
      exact ⟨h1, h2, h3⟩
  | cons hp hc ih =>
      intro hwf x h1 h2 h3 h4
      rename_i c₀ c₁ t' p ps'
      have hwfT : WfCore t' := hc.wf_all (hp.wf_step hwf)
      have hwf1 := hp.wf_step hwf
      have hxnodup : (x.pool.map (fun e => e.1)).Nodup := by
        rw [shapeOf_fst, h2, ← shapeOf_fst]
        exact hwfT.1
      rw [execAll_cons]
      cases hp with
      | update id u hid =>
          simp only [Prim.exec] at hc hwf1 ih ⊢
          have hidT : t'.hasId id = true :=
            hc.hasId_mono_all (by rw [Core.hasId_withState]; exact hid)
          have hxhas : x.hasId id = true := by
            rw [(shapeOf_spec h2 id).1]
            exact hidT
          have hkeysub : ∀ k, hasKey u k = true →
              hasKey (x.stateOf id) k = true := by
            intro k hk
            rw [hasKey_eq_of_keysOf_eq (shapeOf_spec h2 id).2.1 k]
            refine hc.keys_mono_all (by rw [Core.hasId_withState]; exact hid) ?_
            rw [Core.stateOf_withState_self c₀ id _ hid, hasKey_objAssign, hk]
            simp
          refine ih hwf1 (x.withState id (fun st => objAssign st u)) ?_ ?_ ?_ ?_
          · rw [Core.seq_withState, Core.seq_withState]
            exact h1
          · rw [Core.shape_withState x id _ hxnodup
              (keysOf_objAssign_of_sub (x.stateOf id) u hkeysub)]
            exact h2
          · intro id' hid'
            rw [Core.hasId_withState] at hid'
            by_cases he : id' = id
            · subst he
              rw [Core.stateOf_withState_self c₀ id' _ hid',
                Core.stateOf_withState_self x id' _ hxhas]
              exact agreeOn_objAssign_congr _ _ u (h3 id' hid')
            · rw [Core.stateOf_withState_other c₀ id _ id' he,
                Core.stateOf_withState_other x id _ id' he]
              exact h3 id' hid'
          · intro p' hp' id₀ n₀ pos₀ heq
            have hfr := hc.insert_fresh (heq ▸ hp')
            rw [Core.hasId_withState] at hfr
            have hne : id₀ ≠ id := by
              intro hcq
              subst hcq
              rw [hid] at hfr
              cases hfr
            rw [Core.stateOf_withState_other x id _ id₀ hne]
            exact h4 p' (List.mem_cons_of_mem _ hp') id₀ n₀ pos₀ heq
      | insert id n pos hfresh hpos hkeys =>
          simp only [Prim.exec]
          rw [show (⟨c₀.pool ++ [(id, n)], spliceIn c₀.seq pos id⟩ : Core)
              = c₀.alloc id n pos from rfl] at hc hwf1 ih
          refine ih hwf1 ⟨x.pool, spliceIn x.seq pos id⟩ ?_ ?_ ?_ ?_
          · show spliceIn x.seq pos id = (c₀.alloc id n pos).seq
            show spliceIn x.seq pos id = spliceIn c₀.seq pos id
            rw [h1]
          · exact h2
          · intro id' hid'
            by_cases hh : c₀.hasId id' = true
            · rw [Core.stateOf_alloc_of_has c₀ id n pos id' hh]
              exact h3 id' hh
            · have hee : id = id' := by
                rw [Core.hasId_alloc] at hid'
                simp only [Bool.not_eq_true] at hh
                rw [hh] at hid'
                simpa using hid'
              subst hee
              rw [Core.stateOf_alloc_self c₀ id n pos hfresh]
              exact h4 _ (List.mem_cons_self _ _) id n pos rfl
          · intro p' hp' id₀ n₀ pos₀ heq
            exact h4 p' (List.mem_cons_of_mem _ hp') id₀ n₀ pos₀ heq
      | remove pos cid hpos hcid =>
          simp only [Prim.exec] at hc hwf1 ih ⊢
          refine ih hwf1 ⟨x.pool, spliceOut x.seq pos⟩ ?_ ?_ ?_ ?_
          · show spliceOut x.seq pos = spliceOut c₀.seq pos
            rw [h1]
          · exact h2
          · intro id' hid'
            exact h3 id' hid'
          · intro p' hp' id₀ n₀ pos₀ heq
            exact h4 p' (List.mem_cons_of_mem _ hp') id₀ n₀ pos₀ heq

/-- Two states with identical ordered key lists (duplicate-free) that
agree on every key are equal. -/
theorem stateMap_eq_of_agree (p q : StateMap) (hkeys : keysOf p = keysOf q)
    (hnd : (keysOf q).Nodup) (hagree : AgreeOn q p) : p = q := by
  induction q generalizing p with
  | nil =>
      cases p with
      | nil => rfl
      | cons e pt => simp [keysOf] at hkeys
  | cons e qt ih =>
      cases p with
      | nil => simp [keysOf] at hkeys
      | cons e' pt =>
          obtain ⟨k, v⟩ := e
          obtain ⟨k', v'⟩ := e'
          simp only [keysOf, List.map_cons, List.cons.injEq] at hkeys
          have hk : k' = k := hkeys.1
          subst hk
          simp only [keysOf, List.map_cons, List.nodup_cons] at hnd
          have hv : v' = v := by
            have h := hagree k' (by simp [hasKey])
            simpa [getKey] using h
          subst hv
          have htail : pt = qt := by
            apply ih pt hkeys.2 hnd.2
            intro k hk2
            have hkq : ¬ k' = k := by
              intro hc
              exact hnd.1 (hc ▸ ((hasKey_iff_mem_keysOf qt k).mp hk2))
            have h := hagree k (by simp [hasKey, hk2])
            simpa [getKey, hkq] using h
          rw [htail]

theorem pool_eq (pa pb : Pool)
    (hshape : pa.map entryShape = pb.map entryShape)
    (hnd : (pb.map (fun e => e.1)).Nodup)
    (hkeysnd : ∀ e ∈ pb, (keysOf e.2.state).Nodup)
    (hagree : ∀ id, poolHas pb id = true →
      AgreeOn (poolFind pb id).state (poolFind pa id).state) :
    pa = pb := by
  induction pa generalizing pb with
  | nil =>
      cases pb with
      | nil => rfl
      | cons e rb => simp at hshape
  | cons e ra ih =>
      cases pb with
      | nil => simp at hshape
      | cons e' rb =>
          simp only [List.map_cons, List.cons.injEq] at hshape
          have hid : e.1 = e'.1 := by
            have := congrArg (fun q => q.1) hshape.1
            simpa [entryShape] using this
          have hvar : e.2.variant = e'.2.variant := by
            have := congrArg (fun q => q.2.1) hshape.1
            simpa [entryShape] using this
          have hkeys : keysOf e.2.state = keysOf e'.2.state := by
            have := congrArg (fun q => q.2.2) hshape.1
            simpa [entryShape] using this
          simp only [List.map_cons, List.nodup_cons] at hnd
          have hheadAgree : AgreeOn e'.2.state e.2.state := by
            have h := hagree e'.1 (by simp [poolHas, List.any_cons])
            have hfa : poolFind (e :: ra) e'.1 = e.2 := by
              simp [poolFind, List.find?, hid]
            have hfb : poolFind (e' :: rb) e'.1 = e'.2 := by
              simp [poolFind, List.find?]
            rw [hfa, hfb] at h
            exact h
          have hstate : e.2.state = e'.2.state :=
            stateMap_eq_of_agree e.2.state e'.2.state hkeys
              (hkeysnd e' (List.mem_cons_self e' rb)) hheadAgree
          have hhead : e = e' := by
            obtain ⟨i1, n1⟩ := e
            obtain ⟨i2, n2⟩ := e'
            obtain ⟨v1, s1⟩ := n1
            obtain ⟨v2, s2⟩ := n2
            simp only at hid hvar hstate
            rw [hid, hvar, hstate]
          rw [hhead]
          have htail : ra = rb := by
            apply ih rb hshape.2 hnd.2 (fun q hq => hkeysnd q (List.mem_cons_of_mem e' hq))
            intro id hidb
            have hne : ¬ e'.1 = id := by
              intro hc
              apply hnd.1
              simp only [poolHas, List.any_eq_true, decide_eq_true_eq] at hidb
              obtain ⟨q, hq, hqe⟩ := hidb
              exact hc ▸ hqe ▸ List.mem_map_of_mem (fun e => e.1) hq
            have hb : poolHas (e' :: rb) id = true := by
              simp only [poolHas, List.any_cons, Bool.or_eq_true]
              exact Or.inr (by simpa [poolHas] using hidb)
            have h := hagree id hb
            have hda : (decide (e.1 = id)) = false := by
              rw [hhead]; simp [hne]
            have hdb : (decide (e'.1 = id)) = false := by simp [hne]
            have hfa : poolFind (e :: ra) id = poolFind ra id := by
              simp [poolFind, List.find?, hda]
            have hfb : poolFind (e' :: rb) id = poolFind rb id := by
              simp [poolFind, List.find?, hdb]
            rw [hfa, hfb] at h
            exact h
          rw [htail]

theorem core_eq {a b : Core} (hseq : a.seq = b.seq)
    (hshape : shapeOf a = shapeOf b)
    (hagree : ∀ id, b.hasId id = true → AgreeOn (b.stateOf id) (a.stateOf id))
    (hwfb : WfCore b) : a = b := by
  obtain ⟨pa, sa⟩ := a
  obtain ⟨pb, sb⟩ := b
  simp only at hseq
  rw [hseq]
  have hpool : pa = pb :=
    pool_eq pa pb hshape hwfb.1 hwfb.2 hagree
  rw [hpool]

/-- Round trip: cancelling all primitives of a creation chain in reverse
order and then re-executing all of them in order restores the end state
exactly — heap and array alike. -/
theorem chain_roundtrip {s t : Core} {ps : List Prim} (hch : Chain s ps t)
    (hwf : WfCore s) : execAll ps (cancelAll ps t) = t := by
  obtain ⟨u1, u2, u3, u4⟩ :=
    cancelAll_spec hch hwf t rfl rfl (fun id _ => AgreeOn.refl _)
  obtain ⟨r1, r2, r3⟩ :=
    execAll_spec hch hwf (cancelAll ps t) u1 u2 u3 u4
  exact core_eq r1 r2 r3 (hch.wf_all hwf)

theorem Cmd.flattenList_append (a b : List Cmd) :
    Cmd.flattenList (a ++ b) = Cmd.flattenList a ++ Cmd.flattenList b := by
  induction a with
  | nil => rfl
  | cons k ks ih =>
      show k.flatten ++ Cmd.flattenList (ks ++ b) = _
      rw [ih]
      simp [Cmd.flattenList, List.append_assoc]

theorem pushes_desc {s : EState} {steps : List (Cmd × Sel)} {t : EState}
    (h : Pushes s steps t)
    (hcur : s.hist.cursor = (s.hist.stack.length : Int) - 1) :
    ∃ hcs : List HCmd,
      t.hist.stack = s.hist.stack ++ hcs
      ∧ t.hist.cursor = (t.hist.stack.length : Int) - 1
      ∧ hcs.map (fun k => k.cmd) = steps.map Prod.fst
      ∧ Chain s.core (Cmd.flattenList (hcs.map (fun k => k.cmd))) t.core
      ∧ SelLink s.sel hcs t.sel := by
  induction h with
  | nil s =>
      exact ⟨[], by simp, hcur, by simp, Chain.nil s.core, rfl⟩
  | cons hcr hrest ih =>
      rename_i s c core' sa rest t
      have hcur' : (s.hist.push ⟨c, s.sel, sa⟩).cursor
          = (((s.hist.push ⟨c, s.sel, sa⟩).stack.length : Int) - 1) := by
        simp only [History.push]
        rw [hcur]
        have : ((s.hist.stack.length : Int) - 1 + 1).toNat = s.hist.stack.length := by
          omega
        rw [this, List.take_length]
        simp
      obtain ⟨hcs, h1, h2, h3, h4, h5⟩ := ih hcur'
      refine ⟨⟨c, s.sel, sa⟩ :: hcs, ?_, h2, ?_, ?_, rfl, h5⟩
      · rw [h1]
        simp only [History.push]
        rw [hcur]
        have : ((s.hist.stack.length : Int) - 1 + 1).toNat = s.hist.stack.length := by
          omega
        rw [this, List.take_length, List.append_assoc]
        rfl
      · simp only [List.map_cons]
        rw [h3]
      · simp only [List.map_cons]
        show Chain s.core (Cmd.flattenList (c :: hcs.map (fun k => k.cmd))) t.core
        show Chain s.core (c.flatten ++ Cmd.flattenList (hcs.map (fun k => k.cmd))) t.core
        exact Chain.append hcr h4

theorem SelLink.lastSel {s0 sEnd : Sel} {ks : List HCmd}
    (h : SelLink s0 ks sEnd) : selAfterRedo ks s0 = sEnd := by
  induction ks generalizing s0 with
  | nil => exact h.symm
  | cons k rest ih => exact ih h.2

theorem selAfterUndo_append (ks : List HCmd) (k : HCmd) (sel : Sel) :
    selAfterUndo (ks ++ [k]) sel = selAfterUndo ks k.selBefore := by
  cases ks <;> rfl

theorem undo_iter (ks junk : List HCmd) (C : Core) (sel : Sel) :
    EState.undo^[ks.length] ⟨C, sel, ⟨ks ++ junk, (ks.length : Int) - 1⟩⟩
      = ⟨cancelAll (Cmd.flattenList (ks.map (fun k => k.cmd))) C,
         selAfterUndo ks sel, ⟨ks ++ junk, -1⟩⟩ := by
  induction ks using List.reverseRecOn generalizing junk C sel with
  | nil =>
      simp only [List.length_nil, Function.iterate_zero, id_eq, List.nil_append]
      rfl
  | append_singleton ks₀ k ih =>
      rw [show (ks₀ ++ [k]).length = ks₀.length + 1 by simp,
        Function.iterate_succ_apply]
      have hundo : EState.undo
          ⟨C, sel, ⟨(ks₀ ++ [k]) ++ junk, ((ks₀.length + 1 : Nat) : Int) - 1⟩⟩
          = ⟨k.cmd.cancel C, k.selBefore,
             ⟨(ks₀ ++ [k]) ++ junk, (ks₀.length : Int) - 1⟩⟩ := by
        unfold EState.undo
        rw [if_pos (by simp [History.canUndo])]
        have hidx : (((ks₀.length + 1 : Nat) : Int) - 1).toNat = ks₀.length := by
          omega
        have hget : ((ks₀ ++ [k]) ++ junk)[ks₀.length]? = some k := by
          rw [List.append_assoc]
          rw [List.getElem?_append_right (by simp)]
          simp
        simp only [hidx, hget]
        have : ((ks₀.length + 1 : Nat) : Int) - 1 - 1 = (ks₀.length : Int) - 1 := by
          omega
        rw [this]
      rw [hundo]
      have hassoc : (ks₀ ++ [k]) ++ junk = ks₀ ++ ([k] ++ junk) := by
        rw [List.append_assoc]
      rw [hassoc, ih ([k] ++ junk) (k.cmd.cancel C) k.selBefore]
      have hcore : cancelAll (Cmd.flattenList (ks₀.map (fun k => k.cmd)))
            (k.cmd.cancel C)
          = cancelAll (Cmd.flattenList ((ks₀ ++ [k]).map (fun k => k.cmd))) C := by
        rw [List.map_append, Cmd.flattenList_append, cancelAll_append]
        simp only [List.map_cons, List.map_nil]
        rw [show Cmd.flattenList [k.cmd] = k.cmd.flatten ++ [] from rfl]
        rw [List.append_nil, ← Cmd.cancel_eq_flatten]
      rw [hcore, selAfterUndo_append, ← hassoc]

theorem redo_iter (pre ks : List HCmd) (C : Core) (sel : Sel) :
    EState.redo^[ks.length] ⟨C, sel, ⟨pre ++ ks, (pre.length : Int) - 1⟩⟩
      = ⟨execAll (Cmd.flattenList (ks.map (fun k => k.cmd))) C,
         selAfterRedo ks sel, ⟨pre ++ ks, ((pre.length + ks.length : Nat) : Int) - 1⟩⟩ := by
  induction ks generalizing pre C sel with
  | nil =>
      simp only [List.length_nil, Function.iterate_zero, id_eq, List.append_nil,
        Nat.add_zero]
      rfl
  | cons k ks' ih =>
      rw [show (k :: ks').length = ks'.length + 1 from rfl,
        Function.iterate_succ_apply]
      have hredo : EState.redo ⟨C, sel, ⟨pre ++ k :: ks', (pre.length : Int) - 1⟩⟩
          = ⟨k.cmd.exec C, k.selAfter, ⟨pre ++ k :: ks', (pre.length : Int)⟩⟩ := by
        unfold EState.redo
        rw [if_pos (by simp [History.canRedo])]
        have hidx : ((pre.length : Int) - 1 + 1).toNat = pre.length := by omega
        have hget : (pre ++ k :: ks')[pre.length]? = some k := by
          rw [List.getElem?_append_right (by simp)]
          simp
        simp only [hidx, hget]
        have : (pre.length : Int) - 1 + 1 = (pre.length : Int) := by omega
        rw [this]
      rw [hredo]
      have hassoc : pre ++ k :: ks' = (pre ++ [k]) ++ ks' := by simp
      have hlen : (pre.length : Int) = (((pre ++ [k]).length : Nat) : Int) - 1 := by
        simp
      rw [hassoc, hlen, ih (pre ++ [k]) (k.cmd.exec C) k.selAfter]
      have hcore : execAll (Cmd.flattenList (ks'.map (fun k => k.cmd)))
            (k.cmd.exec C)
          = execAll (Cmd.flattenList ((k :: ks').map (fun k => k.cmd))) C := by
        simp only [List.map_cons]
        rw [show Cmd.flattenList (k.cmd :: ks'.map (fun k => k.cmd))
            = k.cmd.flatten ++ Cmd.flattenList (ks'.map (fun k => k.cmd)) from rfl]
        rw [execAll_append, ← Cmd.exec_eq_flatten]
      rw [hcore]
      have hcur : (((pre ++ [k]).length + ks'.length : Nat) : Int) - 1
          = ((pre.length + (ks'.length + 1) : Nat) : Int) - 1 := by
        simp
        omega
      rw [hcur]
      rfl

/-- C1: For every History starting from the fresh state (cursor = -1)
and every sequence of N commands pushed to it (each command already
executed at push time), calling `undo()` N times and then `redo()` N
times reproduces the node sequence contents (every node's state, the
order and number of nodes) and the selection state byte-identical to
what they were just after the N pushes. -/
theorem undo_redo_roundtrip
    (c₀ : Core) (sel₀ : Sel) (steps : List (Cmd × Sel)) (t : EState)
    (hwf : WfCore c₀)
    (hp : Pushes ⟨c₀, sel₀, History.fresh⟩ steps t) :
    (EState.redo^[steps.length] (EState.undo^[steps.length] t)).core = t.core
    ∧ nodesOf (EState.redo^[steps.length] (EState.undo^[steps.length] t)).core
        = nodesOf t.core
    ∧ (EState.redo^[steps.length] (EState.undo^[steps.length] t)).sel = t.sel := by
  obtain ⟨hcs, h1, h2, h3, h4, h5⟩ := pushes_desc hp (by norm_num [History.fresh])
  have h1' : t.hist.stack = hcs := by simpa [History.fresh] using h1
  clear h1
  have h1 := h1'
  have hlen : hcs.length = steps.length := by
    have := congrArg List.length h3
    simpa using this
  have ht : t = ⟨t.core, t.sel, ⟨hcs, (hcs.length : Int) - 1⟩⟩ := by
    have h2' : t.hist.cursor = (hcs.length : Int) - 1 := by rw [h2, h1]
    have hh : t.hist = ⟨hcs, (hcs.length : Int) - 1⟩ := by
      calc t.hist = ⟨t.hist.stack, t.hist.cursor⟩ := rfl
        _ = ⟨hcs, (hcs.length : Int) - 1⟩ := by rw [h1, h2']
    calc t = ⟨t.core, t.sel, t.hist⟩ := rfl
      _ = ⟨t.core, t.sel, ⟨hcs, (hcs.length : Int) - 1⟩⟩ := by rw [hh]
  rw [← hlen, ht]
  have hu := undo_iter hcs [] t.core t.sel
  rw [List.append_nil] at hu
  rw [hu]
  have hr := redo_iter [] hcs
    (cancelAll (Cmd.flattenList (hcs.map (fun k => k.cmd))) t.core)
    (selAfterUndo hcs t.sel)
  simp only [List.nil_append, List.length_nil, Nat.cast_zero, zero_sub,
    Nat.zero_add, zero_add] at hr
  rw [hr]
  have hcore : execAll (Cmd.flattenList (hcs.map (fun k => k.cmd)))
      (cancelAll (Cmd.flattenList (hcs.map (fun k => k.cmd))) t.core) = t.core :=
    chain_roundtrip h4 hwf
  have hsel : selAfterRedo hcs (selAfterUndo hcs t.sel) = t.sel := by
    cases hcs with
    | nil =>
        have : t.sel = sel₀ := h5
        simp [selAfterRedo, selAfterUndo]
    | cons k rest =>
        have h5' : selAfterRedo (k :: rest) sel₀ = t.sel := SelLink.lastSel h5
        rw [show selAfterRedo (k :: rest) (selAfterUndo (k :: rest) t.sel)
            = selAfterRedo (k :: rest) sel₀ from rfl]
        exact h5'
  exact ⟨hcore, by rw [hcore], hsel⟩

/-! ### Helper computations for the transform theorems -/

theorem getD_spliceIn_lt (l : List Nat) (p : Nat) (a : Nat) (j : Nat) (d : Nat)
    (hp : p ≤ l.length) (hj : j < p) :
    (spliceIn l p a).getD j d = l.getD j d := by
  induction p generalizing l j with
  | zero => omega
  | succ m ih =>
      cases l with
      | nil => simp at hp
      | cons x xs =>
          rw [spliceIn_cons_succ]
          cases j with
          | zero => rfl
          | succ j' =>
              show (spliceIn xs m a).getD j' d = xs.getD j' d
              exact ih xs j' (by simpa using hp) (by omega)

theorem getD_spliceIn_self (l : List Nat) (p : Nat) (a : Nat) (d : Nat)
    (hp : p ≤ l.length) :
    (spliceIn l p a).getD p d = a := by
  induction p generalizing l with
  | zero => cases l <;> rfl
  | succ m ih =>
      cases l with
      | nil => simp at hp
      | cons x xs =>
          rw [spliceIn_cons_succ]
          show (spliceIn xs m a).getD m d = a
          exact ih xs (by simpa using hp)

theorem stateText_objAssign_text (s : StateMap) (t : String) :
    stateText (objAssign s [("text", JValue.str t)]) = t := by
  unfold stateText
  rw [getKey_objAssign]
  simp [getKey]

theorem stateText_setKey_text (s : StateMap) (t : String) :
    stateText (setKey s "text" (JValue.str t)) = t := by
  unfold stateText
  rw [getKey_setKey]
  simp

theorem getD_mem_of_lt (l : List Nat) (i d : Nat) (h : i < l.length) :
    l.getD i d ∈ l := by
  induction l generalizing i with
  | nil => simp at h
  | cons x xs ih =>
      cases i with
      | zero => exact List.mem_cons_self x xs
      | succ j => exact List.mem_cons_of_mem x (ih j (by simpa using h))

theorem Core.stateOf_mk_pool (p : Core) (s2 : List Nat) (id : Nat) :
    (⟨p.pool, s2⟩ : Core).stateOf id = p.stateOf id := rfl

/-- C3: For every surface, every index `i` of a text-bearing node, and
every offset `k` with `0 ≤ k ≤` that node's length, applying
`mergeTextNodes(surface, i)` to the state produced by
`splitTextNode(surface, i, k)` restores the original single node's text
at index `i` and restores the original node count. -/
theorem splitTextNode_mergeTextNodes_inverse (c : Core) (i k : Nat)
    (hwf : WfSeq c)
    (hi : i < c.seq.length)
    (htext : (c.nodeOf (c.idAt i)).variant.isText = true)
    (hk : k ≤ strLen (stateText (c.stateOf (c.idAt i)))) :
    (Transforms.mergeTextNodes (Transforms.splitTextNode c i k).2 i).2.seq = c.seq
    ∧ stateText
        ((Transforms.mergeTextNodes (Transforms.splitTextNode c i k).2 i).2.stateOf
          ((Transforms.mergeTextNodes (Transforms.splitTextNode c i k).2 i).2.idAt i))
      = stateText (c.stateOf (c.idAt i))
    ∧ (Transforms.mergeTextNodes (Transforms.splitTextNode c i k).2 i).2.seq.length
      = c.seq.length := by
  have hid : c.hasId (c.idAt i) = true := hwf.2 _ (getD_mem_of_lt c.seq i 0 hi)
  have hfresh : c.hasId (freshId c) = false := freshId_not_hasId c
  have hne : freshId c ≠ c.idAt i := by
    intro hcq
    rw [hcq] at hfresh
    rw [hid] at hfresh
    cases hfresh
  -- the split state
  have hc1 : (Transforms.splitTextNode c i k).2
      = (c.withState (c.idAt i)
          (fun st => objAssign st
            [("text", .str (strTake (stateText (c.stateOf (c.idAt i))) k))])).alloc
          (freshId c)
          ⟨(c.nodeOf (c.idAt i)).variant,
           setKey (initialState (c.nodeOf (c.idAt i)).variant) "text"
             (.str (strDrop (stateText (c.stateOf (c.idAt i))) k))⟩
          (i + 1) := rfl
  set cw := c.withState (c.idAt i)
      (fun st => objAssign st
        [("text", .str (strTake (stateText (c.stateOf (c.idAt i))) k))]) with hcw
  set nn : PNode := ⟨(c.nodeOf (c.idAt i)).variant,
      setKey (initialState (c.nodeOf (c.idAt i)).variant) "text"
        (.str (strDrop (stateText (c.stateOf (c.idAt i))) k))⟩ with hnn
  set c₁ := cw.alloc (freshId c) nn (i + 1) with hc₁def
  rw [hc1]
  have hcwseq : cw.seq = c.seq := rfl
  have hc₁seq : c₁.seq = spliceIn c.seq (i + 1) (freshId c) := rfl
  have hi1 : i + 1 ≤ c.seq.length := hi
  -- position lookups after the split
  have hidat : c₁.idAt i = c.idAt i := by
    show (spliceIn c.seq (i + 1) (freshId c)).getD i 0 = c.seq.getD i 0
    exact getD_spliceIn_lt c.seq (i + 1) (freshId c) i 0 hi1 (by omega)
  have hidat1 : c₁.idAt (i + 1) = freshId c := by
    show (spliceIn c.seq (i + 1) (freshId c)).getD (i + 1) 0 = freshId c
    exact getD_spliceIn_self c.seq (i + 1) (freshId c) 0 hi1
  have hcwhas : cw.hasId (c.idAt i) = true := by
    rw [hcw, Core.hasId_withState]
    exact hid
  have hcwhasf : cw.hasId (freshId c) = false := by
    rw [hcw, Core.hasId_withState]
    exact hfresh
  -- the two node states after the split
  have hstate1 : c₁.stateOf (c.idAt i)
      = objAssign (c.stateOf (c.idAt i))
          [("text", .str (strTake (stateText (c.stateOf (c.idAt i))) k))] := by
    rw [hc₁def, Core.stateOf_alloc_of_has cw (freshId c) nn (i + 1) _ hcwhas,
      hcw, Core.stateOf_withState_self c _ _ hid]
  have hstate2 : c₁.stateOf (freshId c) = nn.state := by
    rw [hc₁def, Core.stateOf_alloc_self cw (freshId c) nn (i + 1) hcwhasf]
  have htext1 : stateText (c₁.stateOf (c.idAt i))
      = strTake (stateText (c.stateOf (c.idAt i))) k := by
    rw [hstate1, stateText_objAssign_text]
  have htext2 : stateText (c₁.stateOf (freshId c))
      = strDrop (stateText (c.stateOf (c.idAt i))) k := by
    rw [hstate2, hnn]
    exact stateText_setKey_text _ _
  -- the merge
  have hc₂ : (Transforms.mergeTextNodes c₁ i).2
      = ⟨(c₁.withState (c₁.idAt i)
            (fun st => objAssign st
              [("text", .str (strCat (stateText (c₁.stateOf (c₁.idAt i)))
                (stateText (c₁.stateOf (c₁.idAt (i + 1))))))])).pool,
         spliceOut c₁.seq (i + 1)⟩ := rfl
  have hseq₂ : (Transforms.mergeTextNodes c₁ i).2.seq = c.seq := by
    rw [hc₂]
    show spliceOut c₁.seq (i + 1) = c.seq
    rw [hc₁seq]
    exact spliceOut_spliceIn c.seq (i + 1) (freshId c) hi1
  refine ⟨hseq₂, ?_, by rw [hseq₂]⟩
  have hidat₂ : (Transforms.mergeTextNodes c₁ i).2.idAt i = c.idAt i := by
    unfold Core.idAt
    rw [hseq₂]
  rw [hidat₂]
  have hstate₂ : (Transforms.mergeTextNodes c₁ i).2.stateOf (c.idAt i)
      = objAssign (c₁.stateOf (c.idAt i))
          [("text", .str (strCat (stateText (c₁.stateOf (c.idAt i)))
            (stateText (c₁.stateOf (c₁.idAt (i + 1))))))] := by
    rw [hc₂, Core.stateOf_mk_pool, hidat,
      Core.stateOf_withState_self c₁ (c.idAt i) _ (by
        rw [hc₁def, Core.hasId_alloc, hcwhas]
        rfl)]
  rw [hstate₂, stateText_objAssign_text, hidat1, htext1, htext2,
    strCat_take_drop]

/-- C4: `push(cmd)` increments the cursor, stores `cmd` at the cursor
index, and deletes all stack entries after the cursor, so previously
undone commands can never be redone afterwards; in particular, after
pushing 3 commands, calling `undo()` twice, and pushing a new command,
`canRedo()` returns false and the 2 undone commands are no longer on the
stack. -/
theorem history_push_discards_redo (h : History) (k : HCmd)
    (hlo : -1 ≤ h.cursor) (hhi : h.cursor < (h.stack.length : Int)) :
    ((h.push k).cursor = h.cursor + 1
    ∧ (h.push k).stack.length = (h.cursor + 1).toNat + 1
    ∧ (h.push k).stack[(h.cursor + 1).toNat]? = some k
    ∧ (∀ j : Nat, (j : Int) < h.cursor + 1 → (h.push k).stack[j]? = h.stack[j]?)
    ∧ (h.push k).canRedo = false)
    ∧ (let sel := Sel.collapse 0 0
       let core : Core := ⟨[(1, ⟨Variant.paragraph, [("text", JValue.str "0")]⟩)], [1]⟩
       let mk : String → HCmd := fun t =>
         ⟨.prim (.update 1 [("text", JValue.str "0")] [("text", JValue.str t)]),
          sel, sel⟩
       let e : EState :=
         ⟨core, sel, ((History.fresh.push (mk "1")).push (mk "2")).push (mk "3")⟩
       (((e.undo).undo).hist.push (mk "4")).canRedo = false
       ∧ (((e.undo).undo).hist.push (mk "4")).stack = [mk "1", mk "4"]) := by
  have hn : ((h.cursor + 1).toNat : Int) = h.cursor + 1 := by omega
  have hlen : (h.cursor + 1).toNat ≤ h.stack.length := by omega
  have htake : (h.stack.take (h.cursor + 1).toNat).length = (h.cursor + 1).toNat := by
    simp [Nat.min_eq_left hlen]
  refine ⟨⟨rfl, ?_, ?_, ?_, ?_⟩, ?_, ?_⟩
  · show (h.stack.take (h.cursor + 1).toNat ++ [k]).length = _
    simp [htake]
  · show (h.stack.take (h.cursor + 1).toNat ++ [k])[(h.cursor + 1).toNat]? = some k
    rw [List.getElem?_append_right (by rw [htake])]
    rw [htake]
    simp
  · intro j hj
    show (h.stack.take (h.cursor + 1).toNat ++ [k])[j]? = h.stack[j]?
    have hjlt : j < (h.cursor + 1).toNat := by omega
    rw [List.getElem?_append, htake, if_pos hjlt, List.getElem?_take]
    simp [hjlt]
  · show decide (h.cursor + 1 < ((h.stack.take (h.cursor + 1).toNat ++ [k]).length : Int) - 1) = false
    simp only [List.length_append, List.length_take, List.length_singleton,
      Nat.min_eq_left hlen]
    simp only [decide_eq_false_iff_not]
    push_cast
    omega
  · rfl
  · rfl

theorem hasKey_eq_true_of_getKey_isSome (s : StateMap) (q : String) (v : JValue)
    (h : getKey s q = some v) : hasKey s q = true := by
  by_contra hc
  simp only [Bool.not_eq_true] at hc
  rw [getKey_eq_none_of_not_hasKey s q hc] at h
  cases h

/-- Writing a full snapshot `o` over any state with the same key list
restores `o` exactly. -/
theorem objAssign_restore (x o : StateMap) (hk : keysOf x = keysOf o)
    (hnd : (keysOf o).Nodup) : objAssign x o = o := by
  refine stateMap_eq_of_agree _ o ?_ hnd (agreeOn_objAssign_self o x hnd)
  rw [keysOf_objAssign_of_sub x o ?_]
  · exact hk
  · intro q hq
    rw [hasKey_eq_of_keysOf_eq hk]
    exact hq

/-- C7: For every node, partial update (a subset of the state's
properties, per the command's contract) and boolean flag
`rerenderOnExecute`, the command built by `updateState`
(`CF.updateNode`) captures the node's current state as the undo
snapshot and merges the partial update into the state; its execute
triggers a re-render exactly when `rerenderOnExecute` is true or the
command has already executed once before (so re-execution via redo
always re-renders), and its cancel restores the captured snapshot and
re-renders unconditionally. -/
theorem updateNode_command_spec (st u : StateMap) (b : Bool)
    (hndst : (keysOf st).Nodup) (hndu : (keysOf u).Nodup)
    (hsub : ∀ k, hasKey u k = true → hasKey st k = true) :
    (UNodeCmd.make st u b).oldState = st
    ∧ (∀ h st' k, getKey ((UNodeCmd.make st u b).executeStep h st').1 k
        = (if hasKey u k then getKey u k else getKey st' k))
    ∧ (∀ h st', ((UNodeCmd.make st u b).executeStep h st').2.1 = (b || h))
    ∧ (∀ h st', ((UNodeCmd.make st u b).executeStep h st').2.2 = true)
    ∧ (∀ st', ((UNodeCmd.make st u b).executeStep true st').2.1 = true)
    ∧ ((UNodeCmd.make st u b).cancelStep
        ((UNodeCmd.make st u b).executeStep false st).1).1 = st
    ∧ (∀ st', ((UNodeCmd.make st u b).cancelStep st').2 = true) := by
  refine ⟨rfl, ?_, fun h st' => rfl, fun h st' => rfl, fun st' => by simp
    [UNodeCmd.executeStep], ?_, fun st' => rfl⟩
  · intro h st' k
    show getKey (objAssign st' u) k = _
    rw [getKey_objAssign, getKey_reverse_of_nodup u k hndu]
    cases hg : getKey u k with
    | some v =>
        rw [if_pos (hasKey_eq_true_of_getKey_isSome u k v hg)]
    | none =>
        rw [if_neg (by rw [hasKey_eq_false_of_getKey_eq_none u k hg]; simp)]
  · show objAssign (objAssign st u) st = st
    exact objAssign_restore (objAssign st u) st
      (keysOf_objAssign_of_sub st u hsub) hndst

theorem take_spliceOut (l : List α) (p : Nat) :
    (l.take p ++ l.drop (p + 1)).take p = l.take p := by
  induction p generalizing l with
  | zero => simp
  | succ p ih =>
      cases l with
      | nil => simp
      | cons x xs =>
          simp only [List.take_succ_cons, List.drop_succ_cons, List.cons_append]
          rw [ih]

theorem drop_spliceOut (l : List α) (p m : Nat) :
    (l.take p ++ l.drop (p + 1)).drop (p + m) = l.drop (p + 1 + m) := by
  induction p generalizing l with
  | zero =>
      simp only [List.take_zero, List.nil_append, List.drop_drop]
      congr 1
      omega
  | succ p ih =>
      cases l with
      | nil => simp
      | cons x xs =>
          simp only [List.take_succ_cons, List.drop_succ_cons, List.cons_append]
          rw [show p + 1 + m = (p + m) + 1 by omega, List.drop_succ_cons,
            show p + 1 + 1 + m = (p + 1 + m) + 1 by omega, List.drop_succ_cons,
            ih]

/-- Removing `n` times at the fixed position `start + 1` deletes exactly
the block of `n` nodes that begins at index `start + 1`, and touches no
node object. -/
theorem removeInterior_spec (start n : Nat) : ∀ c : Core,
    (removeInterior c start n).2.pool = c.pool
    ∧ (removeInterior c start n).2.seq
        = c.seq.take (start + 1) ++ c.seq.drop (start + 1 + n) := by
  induction n with
  | zero =>
      intro c
      refine ⟨rfl, ?_⟩
      simp [removeInterior]
  | succ m ih =>
      intro c
      have h1 : (removeInterior c start (m + 1)).2
          = (removeInterior ⟨c.pool, spliceOut c.seq (start + 1)⟩ start m).2 := rfl
      obtain ⟨ihp, ihs⟩ := ih ⟨c.pool, spliceOut c.seq (start + 1)⟩
      refine ⟨by rw [h1, ihp], ?_⟩
      rw [h1, ihs]
      show (spliceOut c.seq (start + 1)).take (start + 1)
          ++ (spliceOut c.seq (start + 1)).drop (start + 1 + m)
          = c.seq.take (start + 1) ++ c.seq.drop (start + 1 + (m + 1))
      unfold spliceOut
      rw [take_spliceOut, drop_spliceOut,
        show start + 1 + 1 + m = start + 1 + (m + 1) by omega]

/-- C8: For a range with start node index `s` and end node index `e`,
`e > s + 1`, over a node sequence, step 1 of `removeRange` — removing
`e - s - 1` times the node at the fixed position `s + 1` — removes
exactly the nodes originally strictly between index `s` and index `e`,
leaving all other nodes and their relative order (and every node
object) intact. -/
theorem removeRange_step1_removes_interior (c : Core) (s e : Nat)
    (h1 : s + 1 < e) (h2 : e ≤ c.seq.length) :
    (removeInterior c s (e - s - 1)).2.seq
        = c.seq.take (s + 1) ++ c.seq.drop e
    ∧ (removeInterior c s (e - s - 1)).2.pool = c.pool := by
  obtain ⟨hp, hs⟩ := removeInterior_spec s (e - s - 1) c
  refine ⟨?_, hp⟩
  rw [hs, show s + 1 + (e - s - 1) = e by omega]

theorem removeRange_step1_removes_interior_witness :
    let c : Core := ⟨[(1, ⟨Variant.paragraph, [("text", JValue.str "a")]⟩),
                     (2, ⟨Variant.paragraph, [("text", JValue.str "b")]⟩),
                     (3, ⟨Variant.paragraph, [("text", JValue.str "c")]⟩),
                     (4, ⟨Variant.paragraph, [("text", JValue.str "d")]⟩)],
                    [1, 2, 3, 4]⟩
    (0 : Nat) + 1 < 3 ∧ 3 ≤ c.seq.length
    ∧ ((removeInterior c 0 (3 - 0 - 1)).2.seq
        = c.seq.take (0 + 1) ++ c.seq.drop 3
      ∧ (removeInterior c 0 (3 - 0 - 1)).2.pool = c.pool) := by
  exact ⟨by decide, by decide,
    removeRange_step1_removes_interior _ 0 3 (by decide) (by decide)⟩

theorem strTake_all (t : String) : strTake t (strLen t) = t := by
  cases t with
  | mk l => simp [strTake, strLen]

theorem strDrop_all (t : String) : strDrop t (strLen t) = "" := by
  cases t with
  | mk l => simp [strDrop, strLen]

theorem strTake_zero (t : String) : strTake t 0 = "" := rfl

theorem strDrop_zero (t : String) : strDrop t 0 = t := rfl

theorem strCat_right_empty (t : String) : strCat t "" = t := by
  cases t with
  | mk l => show String.mk (l ++ []) = _; rw [List.append_nil]

theorem strCat_left_empty (t : String) : strCat "" t = t := by
  cases t with
  | mk l => rfl

theorem getLength_isText (n : PNode) (h : n.variant.isText = true) :
    n.getLength = strLen (stateText n.state) := by
  unfold PNode.getLength
  cases hv : n.variant with
  | paragraph => rfl
  | heading lv => rfl
  | isolated => rw [hv] at h; simp [Variant.isText] at h

theorem getD_append_left (l1 l2 : List Nat) (i d : Nat) (h : i < l1.length) :
    (l1 ++ l2).getD i d = l1.getD i d := by
  induction l1 generalizing i with
  | nil => simp at h
  | cons x xs ih =>
      cases i with
      | zero => rfl
      | succ j =>
          show (xs ++ l2).getD j d = xs.getD j d
          exact ih j (by simpa using h)

theorem getD_append_len (l1 l2 : List Nat) (d : Nat) :
    (l1 ++ l2).getD l1.length d = l2.getD 0 d := by
  induction l1 with
  | nil => rfl
  | cons x xs ih => exact ih

theorem getD_take_of_lt (l : List Nat) (p i d : Nat) (h : i < p) :
    (l.take p).getD i d = l.getD i d := by
  induction p generalizing l i with
  | zero => omega
  | succ m ih =>
      cases l with
      | nil => simp
      | cons x xs =>
          cases i with
          | zero => rfl
          | succ j =>
              show (xs.take m).getD j d = xs.getD j d
              exact ih xs j (by omega)

theorem getD_drop_zero (l : List Nat) (n d : Nat) :
    (l.drop n).getD 0 d = l.getD n d := by
  induction n generalizing l with
  | zero => rfl
  | succ m ih =>
      cases l with
      | nil => simp
      | cons x xs => exact ih xs

theorem removeTextSlice_eq (c : Core) (id a b : Nat) :
    (Transforms.removeTextSlice c id a b).2
      = c.withState id (fun st => objAssign st
          [("text", JValue.str (strCat (strTake (stateText (c.stateOf id)) a)
            (strDrop (stateText (c.stateOf id)) b)))]) := rfl

/-- The start-node `Backspace` call of `removeRange`: stripping the
suffix from `off` to the node's full length keeps the array and the
selection, truncates the node's text to its first `off` characters, and
touches no other node object. -/
theorem nodeBackspace_strip_suffix (c : Core) (sel : Sel) (i off L : Nat)
    (htext : (c.nodeOf (c.idAt i)).variant.isText = true)
    (hhas : c.hasId (c.idAt i) = true)
    (hL : L = strLen (stateText (c.stateOf (c.idAt i)))) :
    (nodeBackspace c sel ⟨i, off, i, L, false⟩ false).2.1.seq = c.seq
    ∧ (nodeBackspace c sel ⟨i, off, i, L, false⟩ false).2.2 = sel
    ∧ stateText ((nodeBackspace c sel ⟨i, off, i, L, false⟩ false).2.1.stateOf
        (c.idAt i)) = strTake (stateText (c.stateOf (c.idAt i))) off
    ∧ (∀ id, id ≠ c.idAt i →
        (nodeBackspace c sel ⟨i, off, i, L, false⟩ false).2.1.stateOf id
          = c.stateOf id)
    ∧ (∀ id, ((nodeBackspace c sel ⟨i, off, i, L, false⟩ false).2.1.nodeOf id).variant
        = (c.nodeOf id).variant)
    ∧ (∀ id, (nodeBackspace c sel ⟨i, off, i, L, false⟩ false).2.1.hasId id
        = c.hasId id) := by
  have hdis : nodeBackspace c sel ⟨i, off, i, L, false⟩ false
      = textBackspace c sel ⟨i, off, i, L, false⟩ false := by
    simp [nodeBackspace, htext]
  rw [hdis]
  by_cases hcol : off = L
  · have htb : textBackspace c sel ⟨i, off, i, L, false⟩ false = (none, c, sel) := by
      simp [textBackspace, MRange.isCollapsed, hcol]
    rw [htb]
    refine ⟨rfl, rfl, ?_, fun id _ => rfl, fun id => rfl, fun id => rfl⟩
    rw [hcol, hL, strTake_all]
  · have htb : textBackspace c sel ⟨i, off, i, L, false⟩ false
        = (some (Transforms.removeTextSlice c (c.idAt i) off L).1,
           (Transforms.removeTextSlice c (c.idAt i) off L).2, sel) := by
      simp [textBackspace, MRange.isCollapsed, hcol]
    rw [htb]
    refine ⟨?_, rfl, ?_, ?_, ?_, ?_⟩
    · show (Transforms.removeTextSlice c (c.idAt i) off L).2.seq = c.seq
      rw [removeTextSlice_eq, Core.seq_withState]
    · show stateText ((Transforms.removeTextSlice c (c.idAt i) off L).2.stateOf
        (c.idAt i)) = _
      rw [removeTextSlice_eq, Core.stateOf_withState_self c (c.idAt i) _ hhas,
        stateText_objAssign_text, hL, strDrop_all, strCat_right_empty]
    · intro id hid
      show (Transforms.removeTextSlice c (c.idAt i) off L).2.stateOf id = _
      rw [removeTextSlice_eq, Core.stateOf_withState_other c (c.idAt i) _ id hid]
    · intro id
      show ((Transforms.removeTextSlice c (c.idAt i) off L).2.nodeOf id).variant = _
      rw [removeTextSlice_eq, Core.variant_withState]
    · intro id
      show (Transforms.removeTextSlice c (c.idAt i) off L).2.hasId id = _
      rw [removeTextSlice_eq, Core.hasId_withState]

/-- The end-node `Backspace` call of `removeRange`: stripping the text
from offset `0` to `eo` keeps the array and the selection, drops the
node's first `eo` characters, and touches no other node object. -/
theorem nodeBackspace_strip_front (c : Core) (sel : Sel) (i eo : Nat)
    (htext : (c.nodeOf (c.idAt i)).variant.isText = true)
    (hhas : c.hasId (c.idAt i) = true) :
    (nodeBackspace c sel ⟨i, 0, i, eo, false⟩ false).2.1.seq = c.seq
    ∧ (nodeBackspace c sel ⟨i, 0, i, eo, false⟩ false).2.2 = sel
    ∧ stateText ((nodeBackspace c sel ⟨i, 0, i, eo, false⟩ false).2.1.stateOf
        (c.idAt i)) = strDrop (stateText (c.stateOf (c.idAt i))) eo
    ∧ (∀ id, id ≠ c.idAt i →
        (nodeBackspace c sel ⟨i, 0, i, eo, false⟩ false).2.1.stateOf id
          = c.stateOf id)
    ∧ (∀ id, ((nodeBackspace c sel ⟨i, 0, i, eo, false⟩ false).2.1.nodeOf id).variant
        = (c.nodeOf id).variant)
    ∧ (∀ id, (nodeBackspace c sel ⟨i, 0, i, eo, false⟩ false).2.1.hasId id
        = c.hasId id) := by
  have hdis : nodeBackspace c sel ⟨i, 0, i, eo, false⟩ false
      = textBackspace c sel ⟨i, 0, i, eo, false⟩ false := by
    simp [nodeBackspace, htext]
  rw [hdis]
  by_cases hcol : (0 : Nat) = eo
  · have htb : textBackspace c sel ⟨i, 0, i, eo, false⟩ false = (none, c, sel) := by
      simp [textBackspace, MRange.isCollapsed, hcol]
    rw [htb]
    refine ⟨rfl, rfl, ?_, fun id _ => rfl, fun id => rfl, fun id => rfl⟩
    rw [← hcol, strDrop_zero]
  · have htb : textBackspace c sel ⟨i, 0, i, eo, false⟩ false
        = (some (Transforms.removeTextSlice c (c.idAt i) 0 eo).1,
           (Transforms.removeTextSlice c (c.idAt i) 0 eo).2, sel) := by
      simp [textBackspace, MRange.isCollapsed, hcol]
    rw [htb]
    refine ⟨?_, rfl, ?_, ?_, ?_, ?_⟩
    · show (Transforms.removeTextSlice c (c.idAt i) 0 eo).2.seq = c.seq
      rw [removeTextSlice_eq, Core.seq_withState]
    · show stateText ((Transforms.removeTextSlice c (c.idAt i) 0 eo).2.stateOf
        (c.idAt i)) = _
      rw [removeTextSlice_eq, Core.stateOf_withState_self c (c.idAt i) _ hhas,
        stateText_objAssign_text, strTake_zero, strCat_left_empty]
    · intro id hid
      show (Transforms.removeTextSlice c (c.idAt i) 0 eo).2.stateOf id = _
      rw [removeTextSlice_eq, Core.stateOf_withState_other c (c.idAt i) _ id hid]
    · intro id
      show ((Transforms.removeTextSlice c (c.idAt i) 0 eo).2.nodeOf id).variant = _
      rw [removeTextSlice_eq, Core.variant_withState]
    · intro id
      show (Transforms.removeTextSlice c (c.idAt i) 0 eo).2.hasId id = _
      rw [removeTextSlice_eq, Core.hasId_withState]

theorem nodup_getD_ne (l : List Nat) (hnd : l.Nodup) (i j d : Nat)
    (hi : i < l.length) (hj : j < l.length) (hij : i ≠ j) :
    l.getD i d ≠ l.getD j d := by
  intro hcontra
  rw [List.getD_eq_getElem l d hi, List.getD_eq_getElem l d hj] at hcontra
  exact hij ((List.Nodup.getElem_inj_iff hnd).mp hcontra)

theorem take_append_self (l1 l2 : List α) : (l1 ++ l2).take l1.length = l1 := by
  induction l1 with
  | nil => rfl
  | cons x xs ih => simpa using ih

theorem drop_append_len_add (l1 l2 : List α) (k : Nat) :
    (l1 ++ l2).drop (l1.length + k) = l2.drop k := by
  induction l1 with
  | nil => simp
  | cons x xs ih =>
      rw [show (x :: xs).length + k = (xs.length + k) + 1 by simp; omega,
        List.cons_append, List.drop_succ_cons]
      exact ih

theorem Core.nodeOf_mk_pool (p : Core) (s2 : List Nat) (id : Nat) :
    (⟨p.pool, s2⟩ : Core).nodeOf id = p.nodeOf id := rfl

theorem mergeTextNodes_core_eq (c : Core) (pos : Nat) :
    (Transforms.mergeTextNodes c pos).2
      = ⟨(Transforms.appendText c (c.idAt pos) (c.stateOf (c.idAt (pos + 1)))).2.pool,
         spliceOut
           (Transforms.appendText c (c.idAt pos) (c.stateOf (c.idAt (pos + 1)))).2.seq
           (pos + 1)⟩ := rfl

theorem appendText_core_eq (c : Core) (id : Nat) (ap : StateMap) :
    (Transforms.appendText c id ap).2
      = c.withState id (fun st => objAssign st
          [("text", JValue.str (strCat (stateText (c.stateOf id)) (stateText ap)))]) :=
  rfl

/-- The final `mergeTextNodes` phase of `removeRange`: merging position
`s` with position `s + 1` over a core whose array is the original one
with the interior and the end node still present at `s + 1` leaves the
single start node carrying the concatenated text. -/
theorem mergeStep_spec (c s2c : Core) (s e so eo : Nat)
    (hlen : s + 1 ≤ c.seq.length) (hs : s < c.seq.length)
    (hseq : s2c.seq = c.seq.take (s + 1) ++ c.seq.drop e)
    (hS2id0 : s2c.idAt s = c.idAt s)
    (hS2id1 : s2c.idAt (s + 1) = c.idAt e)
    (hhasS2 : s2c.hasId (c.idAt s) = true)
    (hvarS : (s2c.nodeOf (c.idAt s)).variant = (c.nodeOf (c.idAt s)).variant)
    (htextS : stateText (s2c.stateOf (c.idAt s))
        = strTake (stateText (c.stateOf (c.idAt s))) so)
    (htextE : stateText (s2c.stateOf (c.idAt e))
        = strDrop (stateText (c.stateOf (c.idAt e))) eo) :
    (Transforms.mergeTextNodes s2c s).2.seq
        = c.seq.take (s + 1) ++ c.seq.drop (e + 1)
    ∧ (Transforms.mergeTextNodes s2c s).2.idAt s = c.idAt s
    ∧ ((Transforms.mergeTextNodes s2c s).2.nodeOf (c.idAt s)).variant
        = (c.nodeOf (c.idAt s)).variant
    ∧ stateText ((Transforms.mergeTextNodes s2c s).2.stateOf (c.idAt s))
        = strCat (strTake (stateText (c.stateOf (c.idAt s))) so)
            (strDrop (stateText (c.stateOf (c.idAt e))) eo) := by
  have htk : (c.seq.take (s + 1)).length = s + 1 := by
    rw [List.length_take]; omega
  have e1 := take_append_self (c.seq.take (s + 1)) (c.seq.drop e)
  rw [htk] at e1
  have e2 := drop_append_len_add (c.seq.take (s + 1)) (c.seq.drop e) 1
  rw [htk] at e2
  have e3 : (c.seq.drop e).drop 1 = c.seq.drop (e + 1) := by
    rw [List.drop_drop]
  have h1 : (Transforms.mergeTextNodes s2c s).2.seq
      = c.seq.take (s + 1) ++ c.seq.drop (e + 1) := by
    rw [mergeTextNodes_core_eq]
    show spliceOut (Transforms.appendText s2c (s2c.idAt s)
        (s2c.stateOf (s2c.idAt (s + 1)))).2.seq (s + 1) = _
    rw [appendText_core_eq, Core.seq_withState]
    unfold spliceOut
    rw [hseq, e1, e2, e3]
  refine ⟨h1, ?_, ?_, ?_⟩
  · unfold Core.idAt
    rw [h1, getD_append_left _ _ _ _ (by rw [htk]; omega),
      getD_take_of_lt _ _ _ _ (by omega)]
  · rw [mergeTextNodes_core_eq, Core.nodeOf_mk_pool, appendText_core_eq,
      Core.variant_withState, hvarS]
  · rw [mergeTextNodes_core_eq, Core.stateOf_mk_pool, appendText_core_eq]
    simp only [hS2id0, hS2id1]
    rw [Core.stateOf_withState_self _ _ _ hhasS2]
    show stateText (objAssign (s2c.stateOf (c.idAt s))
      [("text", JValue.str (strCat (stateText (s2c.stateOf (c.idAt s)))
        (stateText (s2c.stateOf (c.idAt e)))))]) = _
    rw [stateText_objAssign_text, htextS, htextE]

/-- C2: For every range over a surface whose start node index is
strictly less than its end node index, with text-bearing start and end
nodes, `removeRange(r)` leaves a single node in place of the spanned
nodes — the array becomes the prefix up to the start node followed by
the nodes after the end node — and that node is the start node itself
(same variant), holding the start node's text up to `startOffset`
concatenated with the end node's text from `endOffset` on; in
particular on document `[Heading(level 1, "Title"), TextNode("Body")]`
with a range from offset 3 of node 0 to offset 2 of node 1, the single
remaining node is a heading with text "Titdy". -/
theorem removeRange_spans_to_single_node (c : Core) (sel : Sel)
    (s so e eo : Nat) (hwf : WfSeq c) (hse : s < e) (he : e < c.seq.length)
    (hst : (c.nodeOf (c.idAt s)).variant.isText = true)
    (het : (c.nodeOf (c.idAt e)).variant.isText = true) :
    ((removeRange c sel ⟨s, so, e, eo, false⟩).2.1.seq
        = c.seq.take (s + 1) ++ c.seq.drop (e + 1)
    ∧ (removeRange c sel ⟨s, so, e, eo, false⟩).2.1.idAt s = c.idAt s
    ∧ ((removeRange c sel ⟨s, so, e, eo, false⟩).2.1.nodeOf (c.idAt s)).variant
        = (c.nodeOf (c.idAt s)).variant
    ∧ stateText ((removeRange c sel ⟨s, so, e, eo, false⟩).2.1.stateOf (c.idAt s))
        = strCat (strTake (stateText (c.stateOf (c.idAt s))) so)
            (strDrop (stateText (c.stateOf (c.idAt e))) eo))
    ∧ ((removeRange ⟨[(1, ⟨Variant.heading (some (JValue.num 1)),
            [("text", JValue.str "Title")]⟩),
          (2, ⟨Variant.paragraph, [("text", JValue.str "Body")]⟩)], [1, 2]⟩
          (Sel.collapse 0 0) ⟨0, 3, 1, 2, false⟩).2.1.seq = [1]
      ∧ ((removeRange ⟨[(1, ⟨Variant.heading (some (JValue.num 1)),
            [("text", JValue.str "Title")]⟩),
          (2, ⟨Variant.paragraph, [("text", JValue.str "Body")]⟩)], [1, 2]⟩
          (Sel.collapse 0 0) ⟨0, 3, 1, 2, false⟩).2.1.nodeOf 1).variant
          = Variant.heading (some (JValue.num 1))
      ∧ stateText ((removeRange ⟨[(1, ⟨Variant.heading (some (JValue.num 1)),
            [("text", JValue.str "Title")]⟩),
          (2, ⟨Variant.paragraph, [("text", JValue.str "Body")]⟩)], [1, 2]⟩
          (Sel.collapse 0 0) ⟨0, 3, 1, 2, false⟩).2.1.stateOf 1) = "Titdy") := by
  obtain ⟨hnd, hlive⟩ := hwf
  have hslen : s < c.seq.length := by omega
  have hcond : e - (e - (s + 1)) ≠ s := by omega
  have hends : e - (e - (s + 1)) = s + 1 := by omega
  have hstep : (removeRange c sel ⟨s, so, e, eo, false⟩).2.1
      = (Transforms.mergeTextNodes
          (nodeBackspace
            (nodeBackspace (removeInterior c s (e - (s + 1))).2 sel
              ⟨s, so, s,
                ((removeInterior c s (e - (s + 1))).2.nodeOf
                  ((removeInterior c s (e - (s + 1))).2.idAt s)).getLength,
                false⟩ false).2.1
            (nodeBackspace (removeInterior c s (e - (s + 1))).2 sel
              ⟨s, so, s,
                ((removeInterior c s (e - (s + 1))).2.nodeOf
                  ((removeInterior c s (e - (s + 1))).2.idAt s)).getLength,
                false⟩ false).2.2
            ⟨s + 1, 0, s + 1, eo, false⟩ false).2.1 s).2 := by
    simp only [removeRange]
    rw [if_pos hcond, hends]
  obtain ⟨hp1, hs1seq⟩ := removeInterior_spec s (e - (s + 1)) c
  refine ⟨?_, rfl, rfl, rfl⟩
  rw [hstep]
  generalize hgen1 : (removeInterior c s (e - (s + 1))).2 = c1 at hp1 hs1seq ⊢
  have hc1seq : c1.seq = c.seq.take (s + 1) ++ c.seq.drop e := by
    rw [hs1seq, show s + 1 + (e - (s + 1)) = e by omega]
  have hc1node : ∀ id, c1.nodeOf id = c.nodeOf id := by
    intro id; unfold Core.nodeOf; rw [hp1]
  have hc1state : ∀ id, c1.stateOf id = c.stateOf id := by
    intro id; unfold Core.stateOf; rw [hc1node]
  have hc1has : ∀ id, c1.hasId id = c.hasId id := by
    intro id; unfold Core.hasId; rw [hp1]
  have htklen : (c.seq.take (s + 1)).length = s + 1 := by
    rw [List.length_take]; omega
  have hidS : c1.idAt s = c.idAt s := by
    unfold Core.idAt
    rw [hc1seq, getD_append_left _ _ _ _ (by rw [htklen]; omega),
      getD_take_of_lt _ _ _ _ (by omega)]
  have hidE : c1.idAt (s + 1) = c.idAt e := by
    unfold Core.idAt
    rw [hc1seq]
    have h2 := getD_append_len (c.seq.take (s + 1)) (c.seq.drop e) 0
    rw [htklen] at h2
    rw [h2, getD_drop_zero]
  have hhasS : c.hasId (c.idAt s) = true := hlive _ (getD_mem_of_lt _ _ _ hslen)
  have hhasE : c.hasId (c.idAt e) = true := hlive _ (getD_mem_of_lt _ _ _ he)
  have hneqSE : c.idAt e ≠ c.idAt s :=
    nodup_getD_ne c.seq hnd e s 0 he hslen (by omega)
  have htext1 : (c1.nodeOf (c1.idAt s)).variant.isText = true := by
    rw [hidS, hc1node]; exact hst
  have hhas1 : c1.hasId (c1.idAt s) = true := by
    rw [hidS, hc1has]; exact hhasS
  have hL1 : (c1.nodeOf (c1.idAt s)).getLength
      = strLen (stateText (c1.stateOf (c1.idAt s))) :=
    getLength_isText _ htext1
  obtain ⟨hA1, hA2, hA3, hA4, hA5, hA6⟩ :=
    nodeBackspace_strip_suffix c1 sel s so
      ((c1.nodeOf (c1.idAt s)).getLength) htext1 hhas1 hL1
  generalize hgen2 : nodeBackspace c1 sel
      ⟨s, so, s, (c1.nodeOf (c1.idAt s)).getLength, false⟩ false = s1p
    at hA1 hA2 hA3 hA4 hA5 hA6 ⊢
  have hSid0 : s1p.2.1.idAt s = c.idAt s := by
    unfold Core.idAt
    rw [hA1]
    exact hidS
  have hSid1 : s1p.2.1.idAt (s + 1) = c.idAt e := by
    unfold Core.idAt
    rw [hA1]
    exact hidE
  have htext2 : (s1p.2.1.nodeOf (s1p.2.1.idAt (s + 1))).variant.isText = true := by
    rw [hSid1, hA5, hc1node]
    exact het
  have hhas2 : s1p.2.1.hasId (s1p.2.1.idAt (s + 1)) = true := by
    rw [hSid1, hA6, hc1has]
    exact hhasE
  obtain ⟨hB1, hB2, hB3, hB4, hB5, hB6⟩ :=
    nodeBackspace_strip_front s1p.2.1 s1p.2.2 (s + 1) eo htext2 hhas2
  generalize hgen3 : nodeBackspace s1p.2.1 s1p.2.2
      ⟨s + 1, 0, s + 1, eo, false⟩ false = s2p
    at hB1 hB2 hB3 hB4 hB5 hB6 ⊢
  have hA3' : stateText (s1p.2.1.stateOf (c.idAt s))
      = strTake (stateText (c.stateOf (c.idAt s))) so := by
    have h := hA3
    rw [hidS, hc1state] at h
    exact h
  have hstE1 : s1p.2.1.stateOf (c.idAt e) = c.stateOf (c.idAt e) := by
    rw [hA4 _ (by rw [hidS]; exact hneqSE), hc1state]
  have hB3' : stateText (s2p.2.1.stateOf (c.idAt e))
      = strDrop (stateText (c.stateOf (c.idAt e))) eo := by
    have h := hB3
    rw [hSid1, hstE1] at h
    exact h
  have hS2sS : s2p.2.1.stateOf (c.idAt s) = s1p.2.1.stateOf (c.idAt s) :=
    hB4 _ (by rw [hSid1]; exact hneqSE.symm)
  have hseq2 : s2p.2.1.seq = c.seq.take (s + 1) ++ c.seq.drop e := by
    rw [hB1, hA1, hc1seq]
  have hS2id0 : s2p.2.1.idAt s = c.idAt s := by
    unfold Core.idAt
    rw [hB1]
    exact hSid0
  have hS2id1 : s2p.2.1.idAt (s + 1) = c.idAt e := by
    unfold Core.idAt
    rw [hB1]
    exact hSid1
  have hhasS2 : s2p.2.1.hasId (c.idAt s) = true := by
    rw [hB6, hA6, hc1has]
    exact hhasS
  have hvarS : (s2p.2.1.nodeOf (c.idAt s)).variant
      = (c.nodeOf (c.idAt s)).variant := by
    rw [hB5, hA5, hc1node]
  have htextS2 : stateText (s2p.2.1.stateOf (c.idAt s))
      = strTake (stateText (c.stateOf (c.idAt s))) so := by
    rw [hS2sS, hA3']
  exact mergeStep_spec c s2p.2.1 s e so eo (by omega) hslen hseq2
    hS2id0 hS2id1 hhasS2 hvarS htextS2 hB3'

theorem removeRange_spans_to_single_node_witness :
    (WfSeq ⟨[(1, ⟨Variant.heading (some (JValue.num 1)),
          [("text", JValue.str "Title")]⟩),
        (2, ⟨Variant.paragraph, [("text", JValue.str "Body")]⟩)], [1, 2]⟩
      ∧ 0 < 1
      ∧ 1 < (⟨[(1, ⟨Variant.heading (some (JValue.num 1)),
          [("text", JValue.str "Title")]⟩),
        (2, ⟨Variant.paragraph, [("text", JValue.str "Body")]⟩)], [1, 2]⟩ : Core).seq.length
      ∧ ((⟨[(1, ⟨Variant.heading (some (JValue.num 1)),
          [("text", JValue.str "Title")]⟩),
        (2, ⟨Variant.paragraph, [("text", JValue.str "Body")]⟩)], [1, 2]⟩ : Core).nodeOf
          ((⟨[(1, ⟨Variant.heading (some (JValue.num 1)),
          [("text", JValue.str "Title")]⟩),
        (2, ⟨Variant.paragraph, [("text", JValue.str "Body")]⟩)], [1, 2]⟩ : Core).idAt 0)).variant.isText = true)
    ∧ stateText ((removeRange ⟨[(1, ⟨Variant.heading (some (JValue.num 1)),
          [("text", JValue.str "Title")]⟩),
        (2, ⟨Variant.paragraph, [("text", JValue.str "Body")]⟩)], [1, 2]⟩
        (Sel.collapse 0 0) ⟨0, 3, 1, 2, false⟩).2.1.stateOf
          ((⟨[(1, ⟨Variant.heading (some (JValue.num 1)),
          [("text", JValue.str "Title")]⟩),
        (2, ⟨Variant.paragraph, [("text", JValue.str "Body")]⟩)], [1, 2]⟩ : Core).idAt 0))
        = strCat (strTake (stateText ((⟨[(1, ⟨Variant.heading (some (JValue.num 1)),
          [("text", JValue.str "Title")]⟩),
        (2, ⟨Variant.paragraph, [("text", JValue.str "Body")]⟩)], [1, 2]⟩ : Core).stateOf
          ((⟨[(1, ⟨Variant.heading (some (JValue.num 1)),
          [("text", JValue.str "Title")]⟩),
        (2, ⟨Variant.paragraph, [("text", JValue.str "Body")]⟩)], [1, 2]⟩ : Core).idAt 0))) 3)
            (strDrop (stateText ((⟨[(1, ⟨Variant.heading (some (JValue.num 1)),
          [("text", JValue.str "Title")]⟩),
        (2, ⟨Variant.paragraph, [("text", JValue.str "Body")]⟩)], [1, 2]⟩ : Core).stateOf
          ((⟨[(1, ⟨Variant.heading (some (JValue.num 1)),
          [("text", JValue.str "Title")]⟩),
        (2, ⟨Variant.paragraph, [("text", JValue.str "Body")]⟩)], [1, 2]⟩ : Core).idAt 1))) 2) :=
  ⟨⟨⟨by decide, by decide⟩, by decide, by decide, by decide⟩,
   (removeRange_spans_to_single_node
     ⟨[(1, ⟨Variant.heading (some (JValue.num 1)),
          [("text", JValue.str "Title")]⟩),
        (2, ⟨Variant.paragraph, [("text", JValue.str "Body")]⟩)], [1, 2]⟩
     (Sel.collapse 0 0) 0 3 1 2 ⟨by decide, by decide⟩ (by decide) (by decide)
     (by decide) (by decide)).1.2.2.2⟩

/-- C5: For every text-bearing node whose `Backspace` handler is
invoked with a live event and a collapsed range at offset 0 of a node
that is not the first node: if the predecessor is text-bearing, the
node is merged into the predecessor (the predecessor keeps its position
and receives the node's text appended, the node leaves the array); if
the node is empty and the predecessor is atomic, the node itself is
removed; and in these cases the selection is placed at the
predecessor's pre-merge length. -/
theorem textBackspace_offset0_event_spec (c : Core) (sel : Sel) (i : Nat)
    (b : Bool) (hi : i ≠ 0) (hwf : WfSeq c) (hilen : i < c.seq.length) :
    ((c.nodeOf (c.idAt (i - 1))).variant.isText = true →
      (textBackspace c sel ⟨i, 0, i, 0, b⟩ true).2.1.seq = spliceOut c.seq i
      ∧ stateText ((textBackspace c sel ⟨i, 0, i, 0, b⟩ true).2.1.stateOf
          (c.idAt (i - 1)))
        = strCat (stateText (c.stateOf (c.idAt (i - 1))))
            (stateText (c.stateOf (c.idAt i)))
      ∧ (textBackspace c sel ⟨i, 0, i, 0, b⟩ true).2.2
          = Sel.collapse (i - 1) ((c.nodeOf (c.idAt (i - 1))).getLength))
    ∧ ((c.nodeOf (c.idAt (i - 1))).variant.isText = false →
      (c.nodeOf (c.idAt i)).getLength = 0 →
      (textBackspace c sel ⟨i, 0, i, 0, b⟩ true).2.1.seq = spliceOut c.seq i
      ∧ (textBackspace c sel ⟨i, 0, i, 0, b⟩ true).2.1.pool = c.pool
      ∧ (textBackspace c sel ⟨i, 0, i, 0, b⟩ true).2.2
          = Sel.collapse (i - 1) ((c.nodeOf (c.idAt (i - 1))).getLength)) := by
  obtain ⟨hnd, hlive⟩ := hwf
  have hi1len : i - 1 < c.seq.length := by omega
  have hhas1 : c.hasId (c.idAt (i - 1)) = true :=
    hlive _ (getD_mem_of_lt _ _ _ hi1len)
  constructor
  · intro hprev
    have hred : textBackspace c sel ⟨i, 0, i, 0, b⟩ true
        = (some (Transforms.mergeTextNodes c (i - 1)).1,
           (Transforms.mergeTextNodes c (i - 1)).2,
           Sel.collapse (i - 1) ((c.nodeOf (c.idAt (i - 1))).getLength)) := by
      simp [textBackspace, MRange.isCollapsed, hi, hprev]
    rw [hred]
    refine ⟨?_, ?_, rfl⟩
    · show (Transforms.mergeTextNodes c (i - 1)).2.seq = _
      rw [mergeTextNodes_core_eq]
      show spliceOut (Transforms.appendText c (c.idAt (i - 1))
        (c.stateOf (c.idAt (i - 1 + 1)))).2.seq (i - 1 + 1) = _
      rw [appendText_core_eq, Core.seq_withState, show i - 1 + 1 = i by omega]
    · show stateText ((Transforms.mergeTextNodes c (i - 1)).2.stateOf
        (c.idAt (i - 1))) = _
      rw [mergeTextNodes_core_eq, Core.stateOf_mk_pool, appendText_core_eq,
        Core.stateOf_withState_self _ _ _ hhas1]
      show stateText (objAssign (c.stateOf (c.idAt (i - 1)))
        [("text", JValue.str (strCat (stateText (c.stateOf (c.idAt (i - 1))))
          (stateText (c.stateOf (c.idAt (i - 1 + 1))))))]) = _
      rw [stateText_objAssign_text, show i - 1 + 1 = i by omega]
  · intro hprev hempty
    have hred : textBackspace c sel ⟨i, 0, i, 0, b⟩ true
        = (some (CF.removeNode c i).1, (CF.removeNode c i).2,
           Sel.collapse (i - 1) ((c.nodeOf (c.idAt (i - 1))).getLength)) := by
      simp [textBackspace, MRange.isCollapsed, hi, hprev, hempty]
    rw [hred]
    exact ⟨rfl, rfl, rfl⟩

theorem textBackspace_offset0_event_spec_witness :
    ((1 : Nat) ≠ 0 ∧ WfSeq wC5 ∧ 1 < wC5.seq.length)
    ∧ ((wC5.nodeOf (wC5.idAt (1 - 1))).variant.isText = true →
        (textBackspace wC5 (Sel.collapse 0 0) ⟨1, 0, 1, 0, true⟩ true).2.1.seq
          = spliceOut wC5.seq 1
        ∧ stateText ((textBackspace wC5 (Sel.collapse 0 0) ⟨1, 0, 1, 0, true⟩
            true).2.1.stateOf (wC5.idAt (1 - 1)))
          = strCat (stateText (wC5.stateOf (wC5.idAt (1 - 1))))
              (stateText (wC5.stateOf (wC5.idAt 1)))
        ∧ (textBackspace wC5 (Sel.collapse 0 0) ⟨1, 0, 1, 0, true⟩ true).2.2
          = Sel.collapse (1 - 1) ((wC5.nodeOf (wC5.idAt (1 - 1))).getLength)) :=
  ⟨⟨by decide, ⟨by decide, by decide⟩, by decide⟩,
   (textBackspace_offset0_event_spec wC5 (Sel.collapse 0 0) 1 true (by decide)
     ⟨by decide, by decide⟩ (by decide)).1⟩

theorem getD_spliceIn_shift (l : List Nat) (p a j d : Nat)
    (hp : p ≤ l.length) (hj : p ≤ j) :
    (spliceIn l p a).getD (j + 1) d = l.getD j d := by
  induction p generalizing l j with
  | zero => rfl
  | succ m ih =>
      cases l with
      | nil => simp at hp
      | cons x xs =>
          rw [spliceIn_cons_succ]
          cases j with
          | zero => omega
          | succ j' =>
              show (spliceIn xs m a).getD (j' + 1) d = xs.getD j' d
              exact ih xs j' (by simpa using hp) (by omega)

theorem splitChar_ne_nil (l : List Char) (sep : Char) :
    splitChar l sep ≠ [] := by
  induction l with
  | nil => simp [splitChar]
  | cons x xs ih =>
      show (match splitChar xs sep with
        | [] => [[x]]
        | seg :: rest =>
            if x = sep then [] :: seg :: rest else (x :: seg) :: rest) ≠ []
      cases h : splitChar xs sep with
      | nil => simp
      | cons seg rest =>
          by_cases hx : x = sep <;> simp [hx]

theorem splitLines_ne_nil (s : String) : splitLines s ≠ [] := by
  unfold splitLines
  intro h
  exact splitChar_ne_nil s.data '\n' (by simpa using h)

theorem getD_dropLast (l : List String) (j : Nat) (d : String)
    (hj : j < l.length - 1) : l.dropLast.getD j d = l.getD j d := by
  induction l generalizing j with
  | nil => simp at hj
  | cons x xs ih =>
      cases xs with
      | nil => simp at hj
      | cons y ys =>
          cases j with
          | zero => rfl
          | succ j' =>
              show ((y :: ys).dropLast).getD j' d = (y :: ys).getD j' d
              exact ih j' (by simp at hj ⊢; omega)

theorem insertText_core_eq (c : Core) (id : Nat) (text : String) (off : Nat) :
    (Transforms.insertText c id text off).2
      = c.withState id (fun st => objAssign st
          [("text", JValue.str (strCat (strCat (strTake (stateText (c.stateOf id)) off)
              text) (strDrop (stateText (c.stateOf id)) off)))]) := rfl

/-- The `Paste` insertion loop: starting from position `base + i`, it
appends one brand-new paragraph node per segment at consecutive
positions, shifting the suffix of the array (including the current
node) rightwards, and leaves every pre-existing node object intact. -/
theorem pasteLoop_facts (segs : List String) : ∀ (c : Core) (base i : Nat),
    base + i ≤ c.seq.length →
    (pasteLoop c base segs i).2.seq.length = c.seq.length + segs.length
    ∧ (∀ j, j < base + i → (pasteLoop c base segs i).2.idAt j = c.idAt j)
    ∧ (∀ j, j < segs.length →
        c.hasId ((pasteLoop c base segs i).2.idAt (base + i + j)) = false
        ∧ ((pasteLoop c base segs i).2.nodeOf
            ((pasteLoop c base segs i).2.idAt (base + i + j))).variant
          = Variant.paragraph
        ∧ stateText ((pasteLoop c base segs i).2.stateOf
            ((pasteLoop c base segs i).2.idAt (base + i + j))) = segs.getD j "")
    ∧ (∀ j, base + i ≤ j →
        (pasteLoop c base segs i).2.idAt (segs.length + j) = c.idAt j)
    ∧ (∀ id, c.hasId id = true →
        (pasteLoop c base segs i).2.stateOf id = c.stateOf id
        ∧ (pasteLoop c base segs i).2.hasId id = true
        ∧ ((pasteLoop c base segs i).2.nodeOf id).variant
          = (c.nodeOf id).variant) := by
  induction segs with
  | nil =>
      intro c base i hle
      refine ⟨by simp [pasteLoop], fun j _ => rfl, fun j hj => by simp at hj,
        fun j _ => by simp [pasteLoop], fun id h => ⟨rfl, h, rfl⟩⟩
  | cons seg rest ih =>
      intro c base i hle
      have hstep : (pasteLoop c base (seg :: rest) i).2
          = (pasteLoop (c.alloc (freshId c)
              ⟨.paragraph, setKey (initialState .paragraph) "text" (.str seg)⟩
              (base + i)) base rest (i + 1)).2 := rfl
      set nd : PNode :=
        ⟨.paragraph, setKey (initialState .paragraph) "text" (.str seg)⟩ with hnd
      set c' := c.alloc (freshId c) nd (base + i) with hc'
      have hseq' : c'.seq = spliceIn c.seq (base + i) (freshId c) := rfl
      have hlen' : c'.seq.length = c.seq.length + 1 := by
        rw [hseq']
        exact length_spliceIn c.seq (base + i) (freshId c) hle
      have hle' : base + (i + 1) ≤ c'.seq.length := by omega
      obtain ⟨ih1, ih2, ih3, ih4, ih5⟩ := ih c' base (i + 1) hle'
      have hmono : ∀ id, c.hasId id = true → c'.hasId id = true := by
        intro id h
        rw [hc', Core.hasId_alloc]
        simp [h]
      have hfreshhas : c'.hasId (freshId c) = true := by
        rw [hc', Core.hasId_alloc]
        simp
      have hidnew : c'.idAt (base + i) = freshId c := by
        show c'.seq.getD (base + i) 0 = freshId c
        rw [hseq']
        exact getD_spliceIn_self c.seq (base + i) (freshId c) 0 hle
      have hidlt : ∀ j, j < base + i → c'.idAt j = c.idAt j := by
        intro j hj
        show c'.seq.getD j 0 = c.seq.getD j 0
        rw [hseq']
        exact getD_spliceIn_lt c.seq (base + i) (freshId c) j 0 hle hj
      have hidge : ∀ j, base + i ≤ j → c'.idAt (j + 1) = c.idAt j := by
        intro j hj
        show c'.seq.getD (j + 1) 0 = c.seq.getD j 0
        rw [hseq']
        exact getD_spliceIn_shift c.seq (base + i) (freshId c) j 0 hle hj
      refine ⟨?_, ?_, ?_, ?_, ?_⟩
      · rw [hstep, ih1, hlen']
        simp
        omega
      · intro j hj
        rw [hstep, ih2 j (by omega), hidlt j hj]
      · intro j hj
        cases j with
        | zero =>
            have hpos : (pasteLoop c' base rest (i + 1)).2.idAt (base + i + 0)
                = freshId c := by
              rw [show base + i + 0 = base + i by omega, ih2 (base + i) (by omega),
                hidnew]
            rw [hstep, hpos]
            obtain ⟨h5s, h5h, h5v⟩ := ih5 (freshId c) hfreshhas
            refine ⟨freshId_not_hasId c, ?_, ?_⟩
            · rw [h5v, hc', Core.nodeOf_alloc_self c _ _ _ (freshId_not_hasId c)]
            · rw [h5s, hc', Core.stateOf_alloc_self c _ _ _ (freshId_not_hasId c),
                hnd]
              show stateText (setKey (initialState .paragraph) "text"
                (JValue.str seg)) = seg
              exact stateText_setKey_text _ seg
        | succ j' =>
            have hj' : j' < rest.length := by simpa using hj
            obtain ⟨h3a, h3b, h3c⟩ := ih3 j' hj'
            have hidx : base + i + (j' + 1) = base + (i + 1) + j' := by omega
            rw [hstep, hidx]
            refine ⟨?_, h3b, h3c⟩
            cases hc : c.hasId ((pasteLoop c' base rest (i + 1)).2.idAt
                (base + (i + 1) + j')) with
            | false => rfl
            | true => rw [hmono _ hc] at h3a; cases h3a
      · intro j hj
        rw [hstep, show (seg :: rest).length + j = rest.length + (j + 1) by
          simp; omega, ih4 (j + 1) (by omega), hidge j hj]
      · intro id hid
        obtain ⟨h5s, h5h, h5v⟩ := ih5 id (hmono id hid)
        rw [hstep]
        refine ⟨?_, h5h, ?_⟩
        · rw [h5s, hc', Core.stateOf_alloc_of_has c _ _ _ id hid]
        · rw [h5v, hc', Core.nodeOf_alloc_of_has c _ _ _ id hid]

/-- C6 (corrected): For every text-bearing node and pasted plain-text
clipboard content, the `Paste` handler splits the text on line breaks
(after normalizing `\r` to `\n`), writes the final segment into the
current node at the caret offset, and inserts exactly one brand-new
paragraph node per remaining segment — but the new nodes are inserted
immediately BEFORE the current node (at positions
`startNodeIndex + i`), in segment order, pushing the current node
rightwards; the selection is then collapsed at the current node's new
position, at an offset equal to the final segment's length (regardless
of the original caret offset). The spec's "immediately after the
current node" does not match the code (see the counterexample). -/
theorem textPaste_inserts_before_current (c : Core) (sel : Sel) (p off : Nat)
    (clip : String) (hwf : WfSeq c) (hp : p < c.seq.length) :
    (textPaste c sel ⟨p, off, p, off, true⟩ clip).2.1.seq.length
        = c.seq.length + ((splitLines (normalizeNewlines clip)).length - 1)
    ∧ (textPaste c sel ⟨p, off, p, off, true⟩ clip).2.1.idAt
        (((splitLines (normalizeNewlines clip)).length - 1) + p) = c.idAt p
    ∧ stateText ((textPaste c sel ⟨p, off, p, off, true⟩ clip).2.1.stateOf
        (c.idAt p))
      = strCat (strCat (strTake (stateText (c.stateOf (c.idAt p))) off)
          ((splitLines (normalizeNewlines clip)).getD
            ((splitLines (normalizeNewlines clip)).length - 1) ""))
        (strDrop (stateText (c.stateOf (c.idAt p))) off)
    ∧ (∀ j, j < (splitLines (normalizeNewlines clip)).length - 1 →
        c.hasId ((textPaste c sel ⟨p, off, p, off, true⟩ clip).2.1.idAt (p + j))
          = false
        ∧ ((textPaste c sel ⟨p, off, p, off, true⟩ clip).2.1.nodeOf
            ((textPaste c sel ⟨p, off, p, off, true⟩ clip).2.1.idAt (p + j))).variant
          = Variant.paragraph
        ∧ stateText ((textPaste c sel ⟨p, off, p, off, true⟩ clip).2.1.stateOf
            ((textPaste c sel ⟨p, off, p, off, true⟩ clip).2.1.idAt (p + j)))
          = (splitLines (normalizeNewlines clip)).getD j "")
    ∧ (∀ j, j < p →
        (textPaste c sel ⟨p, off, p, off, true⟩ clip).2.1.idAt j = c.idAt j)
    ∧ (textPaste c sel ⟨p, off, p, off, true⟩ clip).2.2
        = Sel.collapse (p + ((splitLines (normalizeNewlines clip)).length - 1))
          (strLen ((splitLines (normalizeNewlines clip)).getD
            ((splitLines (normalizeNewlines clip)).length - 1) "")) := by
  obtain ⟨hnd, hlive⟩ := hwf
  have hne : ¬((splitLines (normalizeNewlines clip)).length = 0) := by
    intro h
    exact splitLines_ne_nil (normalizeNewlines clip) (List.length_eq_zero.mp h)
  have hred1 : (textPaste c sel ⟨p, off, p, off, true⟩ clip).2.1
      = (pasteLoop (Transforms.insertText c (c.idAt p)
          ((splitLines (normalizeNewlines clip)).getD
            ((splitLines (normalizeNewlines clip)).length - 1) "") off).2
          p (splitLines (normalizeNewlines clip)).dropLast 0).2 := by
    simp only [textPaste]
    rw [if_neg hne]
  have hred2 : (textPaste c sel ⟨p, off, p, off, true⟩ clip).2.2
      = Sel.collapse (p + ((splitLines (normalizeNewlines clip)).length - 1))
          (strLen ((splitLines (normalizeNewlines clip)).getD
            ((splitLines (normalizeNewlines clip)).length - 1) "")) := by
    simp only [textPaste]
    rw [if_neg hne]
  have hhasP : c.hasId (c.idAt p) = true := hlive _ (getD_mem_of_lt _ _ _ hp)
  have hr0seq : (Transforms.insertText c (c.idAt p)
      ((splitLines (normalizeNewlines clip)).getD
        ((splitLines (normalizeNewlines clip)).length - 1) "") off).2.seq
      = c.seq := by
    rw [insertText_core_eq, Core.seq_withState]
  have hr0has : ∀ id, (Transforms.insertText c (c.idAt p)
      ((splitLines (normalizeNewlines clip)).getD
        ((splitLines (normalizeNewlines clip)).length - 1) "") off).2.hasId id
      = c.hasId id := by
    intro id
    rw [insertText_core_eq, Core.hasId_withState]
  have hr0idAt : ∀ j, (Transforms.insertText c (c.idAt p)
      ((splitLines (normalizeNewlines clip)).getD
        ((splitLines (normalizeNewlines clip)).length - 1) "") off).2.idAt j
      = c.idAt j := by
    intro j
    show (Transforms.insertText c (c.idAt p) _ off).2.seq.getD j 0 = _
    rw [hr0seq]
    rfl
  have hr0state : stateText ((Transforms.insertText c (c.idAt p)
      ((splitLines (normalizeNewlines clip)).getD
        ((splitLines (normalizeNewlines clip)).length - 1) "") off).2.stateOf
      (c.idAt p))
      = strCat (strCat (strTake (stateText (c.stateOf (c.idAt p))) off)
          ((splitLines (normalizeNewlines clip)).getD
            ((splitLines (normalizeNewlines clip)).length - 1) ""))
        (strDrop (stateText (c.stateOf (c.idAt p))) off) := by
    rw [insertText_core_eq, Core.stateOf_withState_self _ _ _ hhasP]
    exact stateText_objAssign_text _ _
  obtain ⟨h1, h2, h3, h4, h5⟩ :=
    pasteLoop_facts (splitLines (normalizeNewlines clip)).dropLast
      (Transforms.insertText c (c.idAt p)
        ((splitLines (normalizeNewlines clip)).getD
          ((splitLines (normalizeNewlines clip)).length - 1) "") off).2
      p 0 (by rw [hr0seq]; omega)
  have hkk : (splitLines (normalizeNewlines clip)).dropLast.length
      = (splitLines (normalizeNewlines clip)).length - 1 := by simp
  refine ⟨?_, ?_, ?_, ?_, ?_, hred2⟩
  · rw [hred1, h1, hr0seq, hkk]
  · have h4p := h4 p (by omega)
    rw [hkk] at h4p
    rw [hred1, h4p]
    exact hr0idAt p
  · rw [hred1, (h5 (c.idAt p) (by rw [hr0has]; exact hhasP)).1, hr0state]
  · intro j hj
    rw [hred1]
    have hj' : j < (splitLines (normalizeNewlines clip)).dropLast.length := by
      rw [hkk]; omega
    obtain ⟨h3a, h3b, h3c⟩ := h3 j hj'
    rw [show p + 0 + j = p + j by omega] at h3a h3b h3c
    rw [hr0has] at h3a
    rw [getD_dropLast _ _ _ hj] at h3c
    exact ⟨h3a, h3b, h3c⟩
  · intro j hj
    rw [hred1, h2 j (by omega), hr0idAt j]

theorem textPaste_inserts_before_current_witness :
    (WfSeq wC6 ∧ 0 < wC6.seq.length)
    ∧ (textPaste wC6 (Sel.collapse 0 0) ⟨0, 1, 0, 1, true⟩ "A\nB").2.1.idAt
        (((splitLines (normalizeNewlines "A\nB")).length - 1) + 0) = wC6.idAt 0 :=
  ⟨⟨⟨by decide, by decide⟩, by decide⟩,
   (textPaste_inserts_before_current wC6 (Sel.collapse 0 0) 0 1 "A\nB"
     ⟨by decide, by decide⟩ (by decide)).2.1⟩

/-- C6 counterexample to the spec's wording: pasting `"A\nB"` at offset
1 of the single paragraph `"xy"` puts the brand-new `"A"` node at
position 0 — immediately BEFORE the current node, which ends up at
position 1 holding `"xBy"` — whereas inserting "immediately after the
current node" would have kept the current node at position 0. -/
theorem textPaste_after_current_counterexample :
    (textPaste wC6 (Sel.collapse 0 0) ⟨0, 1, 0, 1, true⟩ "A\nB").2.1.idAt 0 ≠ 5
    ∧ (textPaste wC6 (Sel.collapse 0 0) ⟨0, 1, 0, 1, true⟩ "A\nB").2.1.idAt 0 = 6
    ∧ stateText ((textPaste wC6 (Sel.collapse 0 0)
        ⟨0, 1, 0, 1, true⟩ "A\nB").2.1.stateOf 6) = "A"
    ∧ (textPaste wC6 (Sel.collapse 0 0) ⟨0, 1, 0, 1, true⟩ "A\nB").2.1.idAt 1 = 5
    ∧ stateText ((textPaste wC6 (Sel.collapse 0 0)
        ⟨0, 1, 0, 1, true⟩ "A\nB").2.1.stateOf 5) = "xBy" := by
  exact ⟨by decide, rfl, rfl, rfl, rfl⟩

theorem updateNode_command_spec_witness :
    (((keysOf [("text", JValue.str "hello"), ("bold", JValue.bool false)]).Nodup
      ∧ (keysOf [("text", JValue.str "bye")]).Nodup
      ∧ (∀ k, hasKey [("text", JValue.str "bye")] k = true →
          hasKey [("text", JValue.str "hello"), ("bold", JValue.bool false)] k
            = true))
    ∧ ((UNodeCmd.make [("text", JValue.str "hello"), ("bold", JValue.bool false)]
          [("text", JValue.str "bye")] false).cancelStep
        ((UNodeCmd.make [("text", JValue.str "hello"), ("bold", JValue.bool false)]
          [("text", JValue.str "bye")] false).executeStep false
          [("text", JValue.str "hello"), ("bold", JValue.bool false)]).1).1
      = [("text", JValue.str "hello"), ("bold", JValue.bool false)]) :=
  ⟨⟨by decide, by decide, by
    intro k hk
    simp only [hasKey, Bool.or_false, decide_eq_true_eq] at hk
    subst hk
    decide⟩,
   (updateNode_command_spec
     [("text", JValue.str "hello"), ("bold", JValue.bool false)]
     [("text", JValue.str "bye")] false (by decide) (by decide)
     (by
       intro k hk
       simp only [hasKey, Bool.or_false, decide_eq_true_eq] at hk
       subst hk
       decide)).2.2.2.2.2.1⟩

theorem undo_redo_roundtrip_witness :
    (WfCore wC1core
      ∧ Pushes ⟨wC1core, Sel.collapse 0 0, History.fresh⟩ wC1steps wC1t)
    ∧ ((EState.redo^[wC1steps.length] (EState.undo^[wC1steps.length] wC1t)).core
        = wC1t.core
      ∧ nodesOf (EState.redo^[wC1steps.length]
          (EState.undo^[wC1steps.length] wC1t)).core = nodesOf wC1t.core
      ∧ (EState.redo^[wC1steps.length] (EState.undo^[wC1steps.length] wC1t)).sel
        = wC1t.sel) := by
  have hcr : CmdCreated wC1core wC1cmd wC1coreB :=
    Chain.cons (PCreated.update wC1core 1 [("text", JValue.str "b")] (by decide))
      (Chain.nil _)
  have hp : Pushes ⟨wC1core, Sel.collapse 0 0, History.fresh⟩ wC1steps wC1t :=
    @Pushes.cons ⟨wC1core, Sel.collapse 0 0, History.fresh⟩ wC1cmd wC1coreB
      (Sel.collapse 0 1) [] wC1t hcr (Pushes.nil wC1t)
  exact ⟨⟨⟨by decide, by decide⟩, hp⟩,
    undo_redo_roundtrip wC1core (Sel.collapse 0 0) wC1steps wC1t
      ⟨by decide, by decide⟩ hp⟩

theorem splitTextNode_mergeTextNodes_inverse_witness :
    (WfSeq wC3 ∧ 0 < wC3.seq.length
      ∧ (wC3.nodeOf (wC3.idAt 0)).variant.isText = true
      ∧ 1 ≤ strLen (stateText (wC3.stateOf (wC3.idAt 0))))
    ∧ ((Transforms.mergeTextNodes (Transforms.splitTextNode wC3 0 1).2 0).2.seq
        = wC3.seq
      ∧ stateText ((Transforms.mergeTextNodes
            (Transforms.splitTextNode wC3 0 1).2 0).2.stateOf
          ((Transforms.mergeTextNodes
            (Transforms.splitTextNode wC3 0 1).2 0).2.idAt 0))
        = stateText (wC3.stateOf (wC3.idAt 0))
      ∧ (Transforms.mergeTextNodes
          (Transforms.splitTextNode wC3 0 1).2 0).2.seq.length
        = wC3.seq.length) :=
  ⟨⟨⟨by decide, by decide⟩, by decide, by decide, by decide⟩,
   splitTextNode_mergeTextNodes_inverse wC3 0 1 ⟨by decide, by decide⟩
     (by decide) (by decide) (by decide)⟩

theorem history_push_discards_redo_witness :
    ((-1 : Int) ≤ History.fresh.cursor
      ∧ History.fresh.cursor < (History.fresh.stack.length : Int))
    ∧ (History.fresh.push ⟨Cmd.prim (Prim.update 0 [] []), Sel.collapse 0 0,
        Sel.collapse 0 0⟩).cursor = History.fresh.cursor + 1 :=
  ⟨⟨by decide, by decide⟩,
   (history_push_discards_redo History.fresh
     ⟨Cmd.prim (Prim.update 0 [] []), Sel.collapse 0 0, Sel.collapse 0 0⟩
     (by decide) (by decide)).1.1⟩

theorem nodeRegGet_error_eq (t : Option JValue) (e : String)
    (h : nodeRegGet t = .error e) : e = "Node class does not exist." := by
  unfold nodeRegGet at h
  split at h
  · cases h
  · cases h
  · injection h with he
    exact he.symm

theorem jHasOwn_of_jGet (j : JValue) (k : String) (v : JValue)
    (h : jGet j k = some v) : jHasOwn j k = true := by
  cases j with
  | obj fields => exact hasKey_eq_true_of_getKey_isSome fields k v h
  | null => cases h
  | bool b => cases h
  | num n => cases h
  | str s => cases h
  | arr es => cases h

/-- The first unregistered node type aborts `Document.nodesFromJSON`
with the registry's error. -/
theorem nodesFromJSON_err (elems : List JValue)
    (h : ∃ j ∈ elems,
      nodeRegGet (jGet j "type") = .error "Node class does not exist.") :
    Document.nodesFromJSON elems = .error "Node class does not exist." := by
  induction elems with
  | nil =>
      obtain ⟨j, hj, _⟩ := h
      cases hj
  | cons a rest ih =>
      obtain ⟨j, hj, hreg⟩ := h
      rcases List.mem_cons.mp hj with rfl | hmem
      · unfold Document.nodesFromJSON
        rw [hreg]
        rfl
      · cases hra : nodeRegGet (jGet a "type") with
        | error e =>
            unfold Document.nodesFromJSON
            rw [hra, nodeRegGet_error_eq _ _ hra]
            rfl
        | ok cls =>
            unfold Document.nodesFromJSON
            rw [hra, ih ⟨j, hmem, hreg⟩]
            rfl

/-- With every listed type registered, `Document.nodesFromJSON`
deserializes the whole list, one node per element. -/
theorem nodesFromJSON_ok (elems : List JValue)
    (h : ∀ j ∈ elems, ∃ cls, nodeRegGet (jGet j "type") = .ok cls) :
    ∃ ns, Document.nodesFromJSON elems = .ok ns ∧ ns.length = elems.length := by
  induction elems with
  | nil => exact ⟨[], rfl, rfl⟩
  | cons a rest ih =>
      obtain ⟨cls, hcls⟩ := h a (List.mem_cons_self a rest)
      obtain ⟨ns, hns, hlen⟩ := ih (fun j hj => h j (List.mem_cons_of_mem a hj))
      refine ⟨nodeFromJSON cls a :: ns, ?_, by simp [hlen]⟩
      unfold Document.nodesFromJSON
      rw [hcls, hns]
      rfl

/-- C9: For every input JSON value, document deserialization fails by
throwing a descriptive error — producing no partial document — whenever
the `nodes` property is missing, whenever `nodes` is not an array, and
whenever any listed node has a type that is not registered in the
node-type registry; for all other well-formed inputs it returns a
complete document, one node per listed element. -/
theorem fromJSON_rejects_or_completes (json : JValue) :
    (jHasOwn json "nodes" = false →
      Document.fromJSON json = .error "A `nodes` property is required.")
    ∧ (jHasOwn json "nodes" = true →
        (∀ elems, jGet json "nodes" ≠ some (JValue.arr elems)) →
        Document.fromJSON json = .error "The `nodes` property must be an array.")
    ∧ (∀ elems, jGet json "nodes" = some (JValue.arr elems) →
        (∃ j ∈ elems, nodeRegGet (jGet j "type")
          = .error "Node class does not exist.") →
        Document.fromJSON json = .error "Node class does not exist.")
    ∧ (∀ elems, jGet json "nodes" = some (JValue.arr elems) →
        (∀ j ∈ elems, ∃ cls, nodeRegGet (jGet j "type") = .ok cls) →
        ∃ d, Document.fromJSON json = .ok d
          ∧ Document.nodesFromJSON elems = .ok d.nodes
          ∧ d.nodes.length = elems.length) := by
  refine ⟨?_, ?_, ?_, ?_⟩
  · intro h
    unfold Document.fromJSON
    rw [if_pos h]
  · intro hhas hnotarr
    unfold Document.fromJSON
    rw [if_neg (by rw [hhas]; simp)]
    cases hg : jGet json "nodes" with
    | none => rfl
    | some v =>
        cases v with
        | arr elems => exact absurd hg (hnotarr elems)
        | null => rfl
        | bool b => rfl
        | num n => rfl
        | str s => rfl
        | obj fields => rfl
  · intro elems hg hex
    have hhas : jHasOwn json "nodes" = true := jHasOwn_of_jGet json "nodes" _ hg
    unfold Document.fromJSON
    rw [if_neg (by rw [hhas]; simp), hg]
    show (Document.nodesFromJSON elems >>= fun nodes =>
      Except.ok (⟨nodes, if jsTruthy (jGet json "title") = true
        then jGet json "title" else none⟩ : Document)) = _
    rw [nodesFromJSON_err elems hex]
    rfl
  · intro elems hg hreg
    have hhas : jHasOwn json "nodes" = true := jHasOwn_of_jGet json "nodes" _ hg
    obtain ⟨ns, hns, hlen⟩ := nodesFromJSON_ok elems hreg
    refine ⟨⟨ns, if jsTruthy (jGet json "title") then jGet json "title" else none⟩,
      ?_, ?_, hlen⟩
    · unfold Document.fromJSON
      rw [if_neg (by rw [hhas]; simp), hg]
      show (Document.nodesFromJSON elems >>= fun nodes =>
        Except.ok (⟨nodes, if jsTruthy (jGet json "title") = true
          then jGet json "title" else none⟩ : Document)) = _
      rw [hns]
      rfl
    · rw [hns]

/-- Deserializing the serialization of a list of registered text-bearing
nodes (paragraphs, headings with a numeric level) restores the node list
exactly. -/
theorem nodesFromJSON_map_toJSON (ns : List PNode)
    (h : ∀ n ∈ ns, (∃ t, n.state = [("text", JValue.str t)])
        ∧ (n.variant = Variant.paragraph
          ∨ ∃ l : Int, n.variant = Variant.heading (some (JValue.num l)))) :
    Document.nodesFromJSON (ns.map nodeToJSON) = .ok ns := by
  induction ns with
  | nil => rfl
  | cons n rest ih =>
      obtain ⟨⟨t, hst⟩, hvar⟩ := h n (List.mem_cons_self n rest)
      have ih' := ih (fun m hm => h m (List.mem_cons_of_mem n hm))
      obtain ⟨v, s⟩ := n
      simp only at hst
      subst hst
      rcases hvar with hv | ⟨l, hv⟩ <;> simp only at hv <;> subst hv
      · show Document.nodesFromJSON
          (nodeToJSON ⟨Variant.paragraph, [("text", JValue.str t)]⟩
            :: rest.map nodeToJSON) = _
        unfold Document.nodesFromJSON
        show (Document.nodesFromJSON (rest.map nodeToJSON) >>= fun others =>
          Except.ok (nodeFromJSON NodeClass.paragraphC
            (nodeToJSON ⟨Variant.paragraph, [("text", JValue.str t)]⟩) :: others))
          = _
        rw [ih']
        rfl
      · show Document.nodesFromJSON
          (nodeToJSON ⟨Variant.heading (some (JValue.num l)),
            [("text", JValue.str t)]⟩ :: rest.map nodeToJSON) = _
        unfold Document.nodesFromJSON
        show (Document.nodesFromJSON (rest.map nodeToJSON) >>= fun others =>
          Except.ok (nodeFromJSON NodeClass.headingC
            (nodeToJSON ⟨Variant.heading (some (JValue.num l)),
              [("text", JValue.str t)]⟩) :: others)) = _
        rw [ih']
        rfl

/-- C10: For every document whose nodes are of registered text-bearing
variants (paragraph, heading with a numeric level), deserializing the
result of serialization (`Document.fromJSON` applied to
`document.toJSON()`) succeeds and yields a document with the same node
list — same number and order of nodes, same type tag, same state (text)
and, for headings, the same level; in particular the empty document
round-trips to a document with zero nodes. -/
theorem toJSON_fromJSON_roundtrip (d : Document)
    (h : ∀ n ∈ d.nodes, (∃ t, n.state = [("text", JValue.str t)])
        ∧ (n.variant = Variant.paragraph
          ∨ ∃ l : Int, n.variant = Variant.heading (some (JValue.num l)))) :
    Except.map Document.nodes (Document.fromJSON (Document.toJSON d))
      = Except.ok d.nodes
    ∧ Except.map Document.nodes
        (Document.fromJSON (Document.toJSON ⟨[], none⟩)) = Except.ok [] := by
  have key : ∀ (json : JValue),
      jGet json "nodes" = some (.arr (d.nodes.map nodeToJSON)) →
      jHasOwn json "nodes" = true →
      Except.map Document.nodes (Document.fromJSON json) = .ok d.nodes := by
    intro json hg hhas
    unfold Document.fromJSON
    rw [if_neg (by rw [hhas]; simp), hg]
    show Except.map Document.nodes
      (Document.nodesFromJSON (d.nodes.map nodeToJSON) >>= fun nodes =>
        Except.ok (⟨nodes, if jsTruthy (jGet json "title") = true
          then jGet json "title" else none⟩ : Document)) = _
    rw [nodesFromJSON_map_toJSON d.nodes h]
    rfl
  constructor
  · cases hT : Document.findTitle d.nodes with
    | some v =>
        have htj : Document.toJSON d
            = .obj [("nodes", .arr (d.nodes.map nodeToJSON)), ("title", v)] := by
          unfold Document.toJSON
          rw [hT]
        rw [htj]
        exact key _ rfl rfl
    | none =>
        have htj : Document.toJSON d
            = .obj [("nodes", .arr (d.nodes.map nodeToJSON))] := by
          unfold Document.toJSON
          rw [hT]
        rw [htj]
        exact key _ rfl rfl
  · rfl

theorem toJSON_fromJSON_roundtrip_witness :
    (∀ n ∈ wC10.nodes, (∃ t, n.state = [("text", JValue.str t)])
        ∧ (n.variant = Variant.paragraph
          ∨ ∃ l : Int, n.variant = Variant.heading (some (JValue.num l))))
    ∧ Except.map Document.nodes (Document.fromJSON (Document.toJSON wC10))
      = Except.ok wC10.nodes
    ∧ Except.map Document.nodes
        (Document.fromJSON (Document.toJSON ⟨[], none⟩)) = Except.ok [] := by
  have hgood : ∀ n ∈ wC10.nodes, (∃ t, n.state = [("text", JValue.str t)])
      ∧ (n.variant = Variant.paragraph
        ∨ ∃ l : Int, n.variant = Variant.heading (some (JValue.num l))) := by
    intro n hn
    rcases List.mem_cons.mp hn with rfl | hn'
    · exact ⟨⟨"x", rfl⟩, Or.inl rfl⟩
    · rcases List.mem_cons.mp hn' with rfl | hn''
      · exact ⟨⟨"T", rfl⟩, Or.inr ⟨1, rfl⟩⟩
      · cases hn''
  exact ⟨hgood, toJSON_fromJSON_roundtrip wC10 hgood⟩
